import Mathlib

/-!
Verification development for the autoproject task execution engine
(autoproject/models.py and autoproject/functions.py).

The Python code is shallowly embedded: pydantic models become structures,
the mutable scheduler loop in `Project.execute` becomes explicit state
passing over an `ExecState`, the remote OpenAI collaborators (runs,
threads, assistants) become oracle parameters, and Python exceptions
become error results.  Fuel arguments bound the two unbounded loops of
the source (`while done_count < len(tasks)` and
`while run.status == "requires_action"`); running out of fuel is the
model counterpart of the source looping.
-/

namespace Autoproject

/-- Assistant model (models.py, class Assistant). -/
structure Assistant where
  name : String
  role : String
  instructions : String
  tools : List String
deriving Repr, DecidableEq

/-- Requirement model (models.py, class Requirement). -/
structure Requirement where
  title : String
  description : String
deriving Repr, DecidableEq

/-- Task model (models.py, class Task). -/
structure Task where
  title : String
  instructions : String
  assigned_to : Assistant
  done : Bool
  depends_on : List String
  functions : List String
deriving Repr, DecidableEq

/-- Project model (models.py, class Project). -/
structure Project where
  reference : String
  goals : List String
  assistants : List Assistant
  tasks : List Task
  requirements : List Requirement
deriving Repr, DecidableEq

/-- One insertion into the Python dict built by
`tasks = dict((task.title, task) for task in self.tasks)`:
an existing key keeps its position but its value is overwritten,
a new key is appended at the end. -/
def dictInsert (m : List Task) (t : Task) : List Task :=
  if m.any (fun u => u.title == t.title) then
    m.map (fun u => if u.title == t.title then t else u)
  else m ++ [t]

/-- The ordered list of values of the dict `tasks`, built left to right
from `self.tasks` with Python dict semantics (last value per key wins). -/
def buildTasks (ts : List Task) : List Task := ts.foldl dictInsert []

/-- Dict lookup `tasks[k]`; `none` models a KeyError. -/
def lookupTask (m : List Task) (k : String) : Option Task :=
  m.find? (fun t => t.title == k)

/-- Models the generator `all(tasks[d].done for d in task.depends_on)`:
dependencies are looked up left to right, a missing key raises KeyError
(the `.error` value carries the missing title), a present but not done
dependency stops the scan with `false`. -/
def checkDeps (m : List Task) : List String → Except String Bool
  | [] => .ok true
  | d :: ds =>
    match lookupTask m d with
    | none => .error d
    | some t => if t.done then checkDeps m ds else .ok false

/-- One pending tool call of a run in the requires_action state
(`run.required_action.submit_tool_outputs.tool_calls` entries). -/
structure ToolCall where
  id : String
  fname : String
  arguments : String
deriving Repr, DecidableEq

/-- One entry of the `tool_outputs` batch submitted back to the run. -/
structure ToolOutput where
  tool_call_id : String
  output : String
deriving Repr, DecidableEq

/-- A remote run, as observed after polling: its status string and,
when status is "requires_action", its pending tool calls. -/
structure Run where
  status : String
  tool_calls : List ToolCall
deriving Repr, DecidableEq

/-- One message of the shared conversation thread. -/
structure Message where
  role : String
  content : String
deriving Repr, DecidableEq

/-- A tool function: it receives the raw JSON argument string of the
call and returns the serialized output; `.error` models a Python
exception raised while parsing the arguments or running the tool. -/
abbrev ToolFn := String → Except String String

/-- The tool registry: `getattr(available_functions, name)`, `none`
models an AttributeError for a name the module does not define. -/
abbrev Registry := String → Option ToolFn

/-- Fatal errors of the execution engine, modelling uncaught Python
exceptions: KeyError from a dangling dependency title, AttributeError
from an unknown tool name, an exception raised by a tool function, and
IndexError from reading the head of an empty message list. -/
inductive ExecErr where
  | keyError (missing : String)
  | unknownTool (name : String)
  | toolError (name : String) (msg : String)
  | indexError
deriving Repr, DecidableEq

/-- Resolution of one requires_action batch: the source `for` loop over
`run.required_action.submit_tool_outputs.tool_calls`.  Returns the list
of tool invocations actually performed (function name, argument string)
paired with either the full `tool_outputs` list or the first error.
Calls are resolved strictly left to right and the first failure aborts
the whole loop, exactly like an uncaught exception in the source. -/
def serviceBatch (registry : Registry) :
    List ToolCall → List (String × String) × Except ExecErr (List ToolOutput)
  | [] => ([], .ok [])
  | c :: cs =>
    match registry c.fname with
    | none => ([], .error (.unknownTool c.fname))
    | some f =>
      match f c.arguments with
      | .error msg => ([(c.fname, c.arguments)], .error (.toolError c.fname msg))
      | .ok out =>
        let rest := serviceBatch registry cs
        ((c.fname, c.arguments) :: rest.1,
          match rest.2 with
          | .error e => .error e
          | .ok outs => .ok ({ tool_call_id := c.id, output := out } :: outs))

/-- Result of driving a run to a terminal state: the final run together
with the trace of submitted batches (pending calls paired with the
outputs handed to `submit_tool_outputs_and_poll`) and the trace of tool
invocations.  `fail` is an uncaught exception, `noFuel` is the model
bound on the unbounded source loop. -/
inductive DriveResult where
  | done (run : Run) (subs : List (List ToolCall × List ToolOutput))
      (invs : List (String × String))
  | fail (e : ExecErr) (subs : List (List ToolCall × List ToolOutput))
      (invs : List (String × String))
  | noFuel (subs : List (List ToolCall × List ToolOutput))
      (invs : List (String × String))
deriving Repr, DecidableEq

/-- The tool-call bridge loop `while run.status == "requires_action"`
of Project.execute: service the pending batch, submit the full output
list in one operation, poll the next run state, repeat.  `submit` is
the remote run-control oracle for `submit_tool_outputs_and_poll`. -/
def driveRun (registry : Registry) (submit : Run → List ToolOutput → Run) :
    Nat → Run → List (List ToolCall × List ToolOutput) →
    List (String × String) → DriveResult
  | 0, run, subs, invs =>
    if run.status = "requires_action" then .noFuel subs invs
    else .done run subs invs
  | fuel + 1, run, subs, invs =>
    if run.status = "requires_action" then
      let r := serviceBatch registry run.tool_calls
      match r.2 with
      | .error e => .fail e subs (invs ++ r.1)
      | .ok outs =>
        driveRun registry submit fuel (submit run outs)
          (subs ++ [(run.tool_calls, outs)]) (invs ++ r.1)
    else .done run subs invs

/-- True exactly when the bridge reached a terminal run state. -/
def DriveResult.isDone : DriveResult → Bool
  | .done _ _ _ => true
  | _ => false

/-- Behaviour of the remote collaborators for one task execution:
the polled run returned by `runs.create_and_poll`, the
`submit_tool_outputs_and_poll` transition function, and the messages
the run itself appends to the shared thread (oldest first). -/
structure RunBehavior where
  run0 : Run
  submit : Run → List ToolOutput → Run
  newMessages : List Message

/-- Outcome of executing one ready task: the thread after the run and
the response surfaced to the operator (some text only when the most
recent message is assistant authored), or an uncaught exception, or
bridge fuel exhaustion. -/
inductive TaskOutcome where
  | ok (thread : List Message) (surfaced : Option String)
  | fail (e : ExecErr) (thread : List Message)
  | noFuel (thread : List Message)

/-- Per task execution in Project.execute: post `task.instructions` as
a user message, start the run, drive it through the bridge, list the
thread messages (the source reads `messages[0]`, the newest message,
so the listing is the reverse of the chronological thread), and
surface the newest message only when its role is "assistant".
The operator confirmation `input("> ")` blocks but has no effect on
the state and is not modelled. -/
def execTask (registry : Registry) (env : Task → RunBehavior) (t : Task)
    (thread : List Message) (bfuel : Nat) : TaskOutcome :=
  let thread1 := thread ++ [{ role := "user", content := t.instructions }]
  let beh := env t
  match driveRun registry beh.submit bfuel beh.run0 [] [] with
  | .fail e _ _ => .fail e thread1
  | .noFuel _ _ => .noFuel thread1
  | .done _ _ _ =>
    let thread2 := thread1 ++ beh.newMessages
    match thread2.reverse with
    | [] => .fail .indexError thread2
    | mr :: _ => .ok thread2 (if mr.role = "assistant" then some mr.content else none)

/-- Scheduler state: the dict values `tasks.values()` (the only task
objects the loop reads and mutates), the shared thread, and the trace
of executed tasks (title, surfaced response) in execution order. -/
structure ExecState where
  m : List Task
  thread : List Message
  trace : List (String × Option String)
deriving Repr, DecidableEq

/-- Result of one scan over `tasks.values()`. -/
inductive PassResult where
  | ok (st : ExecState) (newly : Nat)
  | fail (e : ExecErr) (st : ExecState) (inflight : String)
  | noFuel (st : ExecState)
deriving Repr, DecidableEq

/-- One round of `for task in tasks.values()`: visit the dict slots in
order; skip a done task; check readiness (KeyError aborts the whole
execution); execute a ready task immediately, mark it done in place and
count it.  `newly` counts the `done_count += 1` increments of this
round.  On an uncaught exception the state is returned as is: the
in-flight task keeps `done = False`. -/
def passGo (registry : Registry) (env : Task → RunBehavior) (bfuel : Nat) :
    List Nat → ExecState → Nat → PassResult
  | [], st, newly => .ok st newly
  | i :: is, st, newly =>
    match st.m[i]? with
    | none => passGo registry env bfuel is st newly
    | some t =>
      if t.done then passGo registry env bfuel is st newly
      else
        match checkDeps st.m t.depends_on with
        | .error d => .fail (.keyError d) st t.title
        | .ok false => passGo registry env bfuel is st newly
        | .ok true =>
          match execTask registry env t st.thread bfuel with
          | .fail e th => .fail e { st with thread := th } t.title
          | .noFuel th => .noFuel { st with thread := th }
          | .ok th surfaced =>
            passGo registry env bfuel is
              { m := st.m.set i { t with done := true }, thread := th,
                trace := st.trace ++ [(t.title, surfaced)] }
              (newly + 1)

/-- Result of the whole execution.  `snaps` collects the scheduler
state at the start of each completed round (needed to state ordering
properties about mutually ready tasks); `fail` carries the title of
the task in flight when the exception escaped; `noFuel` is the model
counterpart of the source loop running forever. -/
inductive ExecResult where
  | ok (st : ExecState) (snaps : List ExecState)
  | fail (e : ExecErr) (st : ExecState) (inflight : String)
      (snaps : List ExecState)
  | noFuel (st : ExecState) (snaps : List ExecState)
deriving Repr, DecidableEq

/-- The outer loop `while done_count < len(tasks)` of Project.execute.
`dc` is `done_count`; the dict size `len(tasks)` is `st.m.length`,
which every round preserves. -/
def execLoop (registry : Registry) (env : Task → RunBehavior) (bfuel : Nat) :
    Nat → ExecState → Nat → List ExecState → ExecResult
  | 0, st, _, snaps => .noFuel st snaps
  | fuel + 1, st, dc, snaps =>
    if dc < st.m.length then
      match passGo registry env bfuel (List.range st.m.length) st 0 with
      | .fail e st1 ttl => .fail e st1 ttl (snaps ++ [st])
      | .noFuel st1 => .noFuel st1 (snaps ++ [st])
      | .ok st1 newly => execLoop registry env bfuel fuel st1 (dc + newly) (snaps ++ [st])
    else .ok st snaps

/-- Project.execute: reconcile assistants (no effect on the scheduler
state), create the empty thread, build the title dict with
`done_count = 0`, then run the scan loop. -/
def executeModel (registry : Registry) (env : Task → RunBehavior) (p : Project)
    (bfuel fuel : Nat) : ExecResult :=
  execLoop registry env bfuel fuel
    { m := buildTasks p.tasks, thread := [], trace := [] } 0 []

/-- Final state of the `self.tasks` list objects after execution: the
dict holds references to the task objects, so the last occurrence of
each title is the shared (mutated) object, while every earlier
duplicate keeps its original fields. -/
def finalTaskList (orig m : List Task) : List Task :=
  orig.enum.map (fun ji =>
    if (orig.drop (ji.1 + 1)).all (fun u => u.title != ji.2.title) then
      (lookupTask m ji.2.title).getD ji.2
    else ji.2)

/-- The number of done tasks among the dict values. -/
def countDone (m : List Task) : Nat := (m.filter (fun t => t.done)).length

/-- Dict key order: first occurrence of each title, in list order. -/
def distinctTitles (ks : List String) : List String :=
  ks.foldl (fun acc k => if k ∈ acc then acc else acc ++ [k]) []

/-- Python dict value for a key: the value of its last occurrence. -/
def lastOcc (ts : List Task) (k : String) : Option Task :=
  ts.reverse.find? (fun t => t.title == k)

/-- The remote runs of every task reach a terminal state within the
given bridge fuel (the external collaborators behave). -/
def EnvOk (registry : Registry) (env : Task → RunBehavior) (bfuel : Nat) : Prop :=
  ∀ t : Task, (driveRun registry (env t).submit bfuel (env t).run0 [] []).isDone = true

/-- The execution makes no terminating step for any amount of fuel:
this is the model statement that the source loops forever. -/
def schedulerDiverges (registry : Registry) (env : Task → RunBehavior)
    (bfuel : Nat) (p : Project) : Prop :=
  ∀ fuel : Nat, ∃ st snaps, executeModel registry env p bfuel fuel = .noFuel st snaps

/-- A run already in a terminal state, raising no tool calls. -/
def idleRun : Run := { status := "completed", tool_calls := [] }

/-- Remote behaviour where every run completes at once and posts no
messages. -/
def trivEnv : Task → RunBehavior := fun _ =>
  { run0 := idleRun, submit := fun r _ => r, newMessages := [] }

/-- A registry owning no tools at all. -/
def emptyRegistry : Registry := fun _ => none

/-- Concrete assistant used by the concrete scenario projects. -/
def sampleAssistant : Assistant :=
  { name := "Ada", role := "dev", instructions := "build things", tools := [] }

/-- Concrete task constructor for the scenario projects. -/
def mkTask (title : String) (deps : List String) (done : Bool) : Task :=
  { title := title, instructions := "do " ++ title, assigned_to := sampleAssistant,
    done := done, depends_on := deps, functions := [] }

/-- Scenario of spec section 8: tasks A and B depending on each other. -/
def cycleProject : Project :=
  { reference := "proj", goals := [], assistants := [sampleAssistant],
    tasks := [mkTask "A" ["B"] false, mkTask "B" ["A"] false], requirements := [] }

/-- A project whose single task is already done when execute starts. -/
def preDoneProject : Project :=
  { reference := "proj", goals := [], assistants := [sampleAssistant],
    tasks := [mkTask "A" [] true], requirements := [] }

/-- A project whose single task is already done and names a dependency
title that no task carries. -/
def danglingDoneProject : Project :=
  { reference := "proj", goals := [], assistants := [sampleAssistant],
    tasks := [mkTask "A" ["X"] true], requirements := [] }

/-- Two-task chain: A first, then B depending on A. -/
def chainProject : Project :=
  { reference := "proj", goals := [], assistants := [sampleAssistant],
    tasks := [mkTask "A" [] false, mkTask "B" ["A"] false], requirements := [] }

/-- Chain with a dangling reference: B depends on the missing title X. -/
def danglingProject : Project :=
  { reference := "proj", goals := [], assistants := [sampleAssistant],
    tasks := [mkTask "A" [] false, mkTask "B" ["X"] false], requirements := [] }

/-- Two tasks sharing the title A, with different instructions. -/
def dupTaskOne : Task :=
  { title := "A", instructions := "first", assigned_to := sampleAssistant,
    done := false, depends_on := [], functions := [] }

/-- The later duplicate, the one the dict retains. -/
def dupTaskTwo : Task :=
  { title := "A", instructions := "second", assigned_to := sampleAssistant,
    done := false, depends_on := [], functions := [] }

/-- A project with two tasks sharing one title. -/
def dupProject : Project :=
  { reference := "proj", goals := [], assistants := [sampleAssistant],
    tasks := [dupTaskOne, dupTaskTwo], requirements := [] }

/-! Agent directory model (models.py, get_assistant_list,
get_openai_assistant, generate_assistant_name,
update_or_create_assistant).  The remote OpenAI assistant store is a
plain value: the stored identities in creation order plus the fresh-id
counter of the service. -/

/-- A persistent remote assistant identity. -/
structure RemoteAssistant where
  id : Nat
  name : String
  description : String
  instructions : String
  model : String
  temperature : Rat
deriving Repr, DecidableEq

/-- The remote agent directory. -/
structure Directory where
  assistants : List RemoteAssistant
  nextId : Nat
deriving Repr, DecidableEq

/-- models.py generate_assistant_name: the deterministic remote name. -/
def generate_assistant_name (p : Project) (a : Assistant) : String :=
  p.reference ++ "-" ++ a.name ++ "-" ++ a.role

/-- Python repr of the goals list as interpolated by the f-string
`f"Your goals are {self.goals}."` (for goal strings that need no
escaping). -/
def goalsRepr (goals : List String) : String :=
  "[" ++ String.intercalate ", " (goals.map (fun g => "'" ++ g ++ "'")) ++ "]"

/-- The keyword parameters assembled in update_or_create_assistant;
`cfgModel` and `cfgTemp` stand for the ASSISTANT_MODEL and
ASSISTANT_TEMPERATURE environment settings. -/
structure AsstParams where
  description : String
  instructions : String
  model : String
  name : String
  temperature : Rat
deriving Repr, DecidableEq

/-- models.py update_or_create_assistant, the `params` dict. -/
def assistantParams (p : Project) (cfgModel : String) (cfgTemp : Rat)
    (a : Assistant) : AsstParams :=
  { description := a.role ++ " for project " ++ p.reference ++ "."
  , instructions := "Your name is " ++ a.name ++ ". " ++ "You are a " ++ a.role
      ++ ". " ++ a.instructions ++ " " ++ "Your goals are " ++ goalsRepr p.goals
      ++ ". " ++ "You will receive tasks to complete."
  , model := cfgModel
  , name := generate_assistant_name p a
  , temperature := cfgTemp }

/-- models.py get_openai_assistant: scan the full remote listing and
return the first identity whose name matches exactly, if any. -/
def get_openai_assistant (d : Directory) (p : Project) (a : Assistant) :
    Option RemoteAssistant :=
  d.assistants.find? (fun ra => ra.name == generate_assistant_name p a)

/-- Overwriting every parameter field of an identity, keeping its id:
the effect of `assistants.update(id, **params)` on the stored object,
and also the shape of the object `assistants.create(**params)` stores. -/
def applyParams (ra : RemoteAssistant) (ps : AsstParams) : RemoteAssistant :=
  { id := ra.id, name := ps.name, description := ps.description,
    instructions := ps.instructions, model := ps.model,
    temperature := ps.temperature }

/-- models.py update_or_create_assistant: compute the deterministic
name and parameters; if a remote identity with that name exists update
it in place (keyed by its id) and return it, otherwise create a fresh
one and return it. -/
def update_or_create_assistant (d : Directory) (p : Project)
    (cfgModel : String) (cfgTemp : Rat) (a : Assistant) :
    Directory × RemoteAssistant :=
  let ps := assistantParams p cfgModel cfgTemp a
  match get_openai_assistant d p a with
  | some ra =>
    let ra1 := applyParams ra ps
    ({ d with assistants := d.assistants.map (fun x => if x.id == ra.id then ra1 else x) },
     ra1)
  | none =>
    let ra := applyParams
      { id := d.nextId, name := "", description := "", instructions := "",
        model := "", temperature := 0 } ps
    ({ assistants := d.assistants ++ [ra], nextId := d.nextId + 1 }, ra)

/-- Number of remote identities carrying a given name. -/
def countName (d : Directory) (n : String) : Nat :=
  (d.assistants.filter (fun ra => ra.name == n)).length

/-! Persistence model (models.py, Project.load and Project.save).
`save` writes `json.dump(self.model_dump(), ...)` and `load` runs
`model_validate` on the parsed document.  JSON documents are a plain
inductive; the dump functions mirror pydantic model_dump field by
field, the validate functions mirror pydantic validation: required
fields must be present with the right shape, fields with a default may
be absent. -/

/-- A parsed JSON document. -/
inductive JValue where
  | jnull
  | jbool (b : Bool)
  | jstr (s : String)
  | jarr (xs : List JValue)
  | jobj (fields : List (String × JValue))

/-- Object field lookup. -/
def jField (fields : List (String × JValue)) (k : String) : Option JValue :=
  (fields.find? (fun f => f.1 == k)).map (fun f => f.2)

/-- model_dump of an Assistant. -/
def dumpAssistant (a : Assistant) : JValue :=
  .jobj [("name", .jstr a.name), ("role", .jstr a.role),
         ("instructions", .jstr a.instructions),
         ("tools", .jarr (a.tools.map .jstr))]

/-- model_dump of a Requirement. -/
def dumpRequirement (r : Requirement) : JValue :=
  .jobj [("title", .jstr r.title), ("description", .jstr r.description)]

/-- model_dump of a Task. -/
def dumpTask (t : Task) : JValue :=
  .jobj [("title", .jstr t.title), ("instructions", .jstr t.instructions),
         ("assigned_to", dumpAssistant t.assigned_to), ("done", .jbool t.done),
         ("depends_on", .jarr (t.depends_on.map .jstr)),
         ("functions", .jarr (t.functions.map .jstr))]

/-- model_dump of a Project, the document `save` writes. -/
def dumpProject (p : Project) : JValue :=
  .jobj [("reference", .jstr p.reference),
         ("goals", .jarr (p.goals.map .jstr)),
         ("assistants", .jarr (p.assistants.map dumpAssistant)),
         ("tasks", .jarr (p.tasks.map dumpTask)),
         ("requirements", .jarr (p.requirements.map dumpRequirement))]

/-- String field validation. -/
def parseStr : JValue → Except String String
  | .jstr s => .ok s
  | _ => .error "Input should be a valid string"

/-- Boolean field validation. -/
def parseBool : JValue → Except String Bool
  | .jbool b => .ok b
  | _ => .error "Input should be a valid boolean"

/-- Validation of a list of strings. -/
def parseStrList : JValue → Except String (List String)
  | .jarr xs => xs.mapM parseStr
  | _ => .error "Input should be a valid list"

/-- A required field: absence is a validation error. -/
def reqField (o : List (String × JValue)) (k : String) : Except String JValue :=
  match jField o k with
  | some v => .ok v
  | none => .error ("Field required: " ++ k)

/-- Validation of a nested list of models. -/
def validateList (f : JValue → Except String α) : JValue → Except String (List α)
  | .jarr xs => xs.mapM f
  | _ => .error "Input should be a valid list"

/-- model_validate for Assistant. -/
def validateAssistant : JValue → Except String Assistant
  | .jobj o => do
      let name ← reqField o "name" >>= parseStr
      let role ← reqField o "role" >>= parseStr
      let instructions ← reqField o "instructions" >>= parseStr
      let tools ← match jField o "tools" with
        | none => .ok []
        | some v => parseStrList v
      .ok { name := name, role := role, instructions := instructions, tools := tools }
  | _ => .error "Input should be an object"

/-- model_validate for Requirement. -/
def validateRequirement : JValue → Except String Requirement
  | .jobj o => do
      let title ← reqField o "title" >>= parseStr
      let description ← reqField o "description" >>= parseStr
      .ok { title := title, description := description }
  | _ => .error "Input should be an object"

/-- model_validate for Task. -/
def validateTask : JValue → Except String Task
  | .jobj o => do
      let title ← reqField o "title" >>= parseStr
      let instructions ← reqField o "instructions" >>= parseStr
      let assigned_to ← reqField o "assigned_to" >>= validateAssistant
      let done ← match jField o "done" with
        | none => .ok false
        | some v => parseBool v
      let depends_on ← match jField o "depends_on" with
        | none => .ok []
        | some v => parseStrList v
      let functions ← match jField o "functions" with
        | none => .ok []
        | some v => parseStrList v
      .ok { title := title, instructions := instructions,
            assigned_to := assigned_to, done := done,
            depends_on := depends_on, functions := functions }
  | _ => .error "Input should be an object"

/-- model_validate for Project: what `load` runs on the parsed file. -/
def validateProject : JValue → Except String Project
  | .jobj o => do
      let reference ← reqField o "reference" >>= parseStr
      let goals ← reqField o "goals" >>= parseStrList
      let assistants ← reqField o "assistants" >>= validateList validateAssistant
      let tasks ← reqField o "tasks" >>= validateList validateTask
      let requirements ← match jField o "requirements" with
        | none => .ok []
        | some v => validateList validateRequirement v
      .ok { reference := reference, goals := goals, assistants := assistants,
            tasks := tasks, requirements := requirements }
  | _ => .error "Input should be an object"

/-- The trace of submitted batches of a bridge result. -/
def DriveResult.subs : DriveResult → List (List ToolCall × List ToolOutput)
  | .done _ s _ => s
  | .fail _ s _ => s
  | .noFuel s _ => s

/-- The trace of tool invocations of a bridge result. -/
def DriveResult.invs : DriveResult → List (String × String)
  | .done _ _ v => v
  | .fail _ _ v => v
  | .noFuel _ v => v

/-- The scheduler state carried by a round result. -/
def PassResult.state : PassResult → ExecState
  | .ok st _ => st
  | .fail _ st _ => st
  | .noFuel st => st

/-- Every submitted batch pairs one output with each pending call, in
order, keyed by the identifier of the originating call. -/
def FullBatches (subs : List (List ToolCall × List ToolOutput)) : Prop :=
  ∀ b ∈ subs, b.2.length = b.1.length ∧
    b.2.map ToolOutput.tool_call_id = b.1.map ToolCall.id

/-- During execution a task object either stays as it is or has its
done flag set; no other field ever changes. -/
def TaskStep (t t1 : Task) : Prop := t1 = t ∨ t1 = { t with done := true }

/-- The dict values evolve pointwise by TaskStep: same slots, same
titles and dependencies, done flags only ever flipping to true. -/
def TasksMono (m m1 : List Task) : Prop := List.Forall₂ TaskStep m m1

/-- Every dependency title of every dict value resolves in the dict. -/
def depsClosed (m : List Task) : Prop :=
  ∀ t ∈ m, ∀ d ∈ t.depends_on, (lookupTask m d).isSome = true

/-- A rank certificate for acyclicity of the dependency graph: each
task ranks strictly above every title it depends on. -/
def RankOk (rank : String → Nat) (m : List Task) : Prop :=
  ∀ t ∈ m, ∀ d ∈ t.depends_on, rank d < rank t.title

/-- Done flags agree with the execution trace: a dict value is done
exactly when its title was executed (for runs starting all pending). -/
def DT (st : ExecState) : Prop :=
  ∀ (i : Nat) (t : Task), st.m[i]? = some t →
    (t.done = true ↔ t.title ∈ st.trace.map Prod.fst)

/-- Every executed title is a dict key. -/
def TraceSub (st : ExecState) : Prop :=
  ∀ s ∈ st.trace.map Prod.fst, s ∈ st.m.map Task.title

/-- Dependencies execute first: whenever a title sits at position k of
the trace, every dependency of its task appears strictly earlier. -/
def DO (st : ExecState) : Prop :=
  ∀ (k : Nat) (ttl : String), (st.trace.map Prod.fst)[k]? = some ttl →
    ∀ t : Task, lookupTask st.m ttl = some t →
      ∀ d ∈ t.depends_on, d ∈ (st.trace.map Prod.fst).take k

/-- Mutually ready tasks execute in declared (dict slot) order: if two
pending tasks are both ready in state s, the earlier slot reaches the
trace first. -/
def MutualOrdered (s : ExecState) (tr : List (String × Option String)) : Prop :=
  ∀ (i j : Nat) (ti tj : Task), i < j → s.m[i]? = some ti → s.m[j]? = some tj →
    ti.done = false → tj.done = false →
    checkDeps s.m ti.depends_on = .ok true → checkDeps s.m tj.depends_on = .ok true →
    ∃ (k l : Nat), k < l ∧ (tr.map Prod.fst)[k]? = some ti.title ∧
      (tr.map Prod.fst)[l]? = some tj.title

/-- Registry owning the two demo tools of the section 8 scenario. -/
def demoRegistry : Registry := fun n =>
  if n = "page_scrape" then some (fun args => .ok ("scraped " ++ args))
  else if n = "search_internet" then some (fun args => .ok ("results " ++ args))
  else none

/-- Remote oracle that completes the run on any submission. -/
def demoSubmit : Run → List ToolOutput → Run := fun _ _ => idleRun

/-- Scenario of spec section 8: a run raising two pending tool calls. -/
def twoCallRun : Run :=
  { status := "requires_action",
    tool_calls := [{ id := "call1", fname := "page_scrape", arguments := "args1" },
                   { id := "call2", fname := "search_internet", arguments := "args2" }] }

/-- A registry whose only tool raises an exception when invoked. -/
def failRegistry : Registry := fun n =>
  if n = "page_scrape" then some (fun _ => .error "boom") else none

/-- A run raising a single pending call to the failing tool. -/
def oneCallRun : Run :=
  { status := "requires_action",
    tool_calls := [{ id := "call1", fname := "page_scrape", arguments := "args1" }] }

/-- Remote behaviour whose run immediately requires the failing tool. -/
def failEnv : Task → RunBehavior := fun _ =>
  { run0 := oneCallRun, submit := fun r _ => r, newMessages := [] }

/-- A one-task project used to drive the failing tool scenario. -/
def toolProject : Project :=
  { reference := "proj", goals := [], assistants := [sampleAssistant],
    tasks := [mkTask "A" [] false], requirements := [] }

/-- Remote behaviour whose run completes at once and posts a single
assistant reply. -/
def replyEnv : Task → RunBehavior := fun _ =>
  { run0 := idleRun, submit := fun r _ => r,
    newMessages := [{ role := "assistant", content := "hi" }] }

/-- A taskless project used for the reconciliation scenario. -/
def demoProject : Project :=
  { reference := "proj", goals := ["ship"], assistants := [sampleAssistant],
    tasks := [], requirements := [] }

/-- The remote identity a previous run reconciled for sampleAssistant. -/
def demoRemote : RemoteAssistant :=
  { id := 7, name := "proj-Ada-dev", description := "old", instructions := "old",
    model := "gpt-4o", temperature := 1 }

/-- A directory already holding that identity. -/
def demoDirectory : Directory := { assistants := [demoRemote], nextId := 8 }

/-! Theorems. -/

/-- A round that returns its input state unchanged with zero newly done
tasks keeps the loop spinning: with any fuel the loop only piles up
identical snapshots.  This is the model form of "the scan makes no
progress and the source loops forever". -/
theorem execLoop_stuck (registry : Registry) (env : Task → RunBehavior)
    (bfuel : Nat) (st : ExecState) (dc : Nat) (hlt : dc < st.m.length)
    (hfix : passGo registry env bfuel (List.range st.m.length) st 0 = .ok st 0) :
    ∀ fuel snaps, execLoop registry env bfuel fuel st dc snaps =
      .noFuel st (snaps ++ List.replicate fuel st) := by
  intro fuel
  induction fuel with
  | zero => intro snaps; simp [execLoop]
  | succ n ih =>
    intro snaps
    rw [execLoop]
    simp only [hlt, if_pos, hfix, Nat.add_zero]
    rw [ih (snaps ++ [st])]
    simp [List.replicate_succ]

/-- On the cycle project, one scan round is the identity: neither task
is ever ready, so no state component changes and nothing is counted. -/
theorem passGo_cycle (registry : Registry) (env : Task → RunBehavior) (bfuel : Nat) :
    passGo registry env bfuel
      (List.range (buildTasks cycleProject.tasks).length)
      { m := buildTasks cycleProject.tasks, thread := [], trace := [] } 0 =
    .ok { m := buildTasks cycleProject.tasks, thread := [], trace := [] } 0 := by
  have h2 : (buildTasks cycleProject.tasks).length = 2 := by decide
  rw [h2]
  have hr : List.range 2 = [0, 1] := by decide
  rw [hr]
  simp [passGo, checkDeps, lookupTask, cycleProject, buildTasks, dictInsert, mkTask,
    sampleAssistant]

/-- C1: on a project whose dependency graph is a cycle (task A depends
on B, B depends on A), `execute` does NOT terminate with a fatal error:
for every fuel bound the model loop is still spinning with the state
exactly as it started, zero tasks done and an empty execution trace, so
the source loops forever and no lack-of-progress detection exists.
This refutes the detect-and-report behaviour the specification
requires, exhibiting the code bug. -/
theorem C1_cycle_loops_forever (registry : Registry) (env : Task → RunBehavior)
    (bfuel fuel : Nat) :
    executeModel registry env cycleProject bfuel fuel =
      .noFuel { m := buildTasks cycleProject.tasks, thread := [], trace := [] }
        (List.replicate fuel
          { m := buildTasks cycleProject.tasks, thread := [], trace := [] }) ∧
    ∀ t ∈ buildTasks cycleProject.tasks, t.done = false := by
  constructor
  · have h := execLoop_stuck registry env bfuel
      { m := buildTasks cycleProject.tasks, thread := [], trace := [] } 0
      (by decide) (passGo_cycle registry env bfuel) fuel []
    simpa [executeModel] using h
  · decide

/-- A batch the service loop resolves completely yields exactly one
output per pending call, in order, keyed by the call identifiers. -/
theorem serviceBatch_ok (registry : Registry) (calls : List ToolCall) :
    ∀ outs, (serviceBatch registry calls).2 = .ok outs →
      outs.length = calls.length ∧
      outs.map ToolOutput.tool_call_id = calls.map ToolCall.id := by
  induction calls with
  | nil =>
    intro outs h
    simp [serviceBatch] at h
    subst h
    simp
  | cons c cs ih =>
    intro outs h
    rw [serviceBatch] at h
    cases hr : registry c.fname with
    | none => simp only [hr] at h; exact Except.noConfusion h
    | some f =>
      simp only [hr] at h
      cases hf : f c.arguments with
      | error msg => simp only [hf] at h; exact Except.noConfusion h
      | ok out =>
        simp only [hf] at h
        cases hrest : (serviceBatch registry cs).2 with
        | error e => simp only [hrest] at h; exact Except.noConfusion h
        | ok outs1 =>
          simp only [hrest, Except.ok.injEq] at h
          cases h
          obtain ⟨ihl, ihm⟩ := ih outs1 hrest
          constructor
          · simp [ihl]
          · simp [ihm]

/-- The bridge only extends the submitted-batch trace with full
batches: whatever the accumulator already holds, every batch it adds
pairs one output with each pending call of that round. -/
theorem driveRun_subs_full (registry : Registry) (submit : Run → List ToolOutput → Run) :
    ∀ (fuel : Nat) (run : Run) (subs : List (List ToolCall × List ToolOutput))
      (invs : List (String × String)),
      FullBatches subs →
      FullBatches (driveRun registry submit fuel run subs invs).subs := by
  intro fuel
  induction fuel with
  | zero =>
    intro run subs invs h
    rw [driveRun]
    split
    · exact h
    · exact h
  | succ n ih =>
    intro run subs invs h
    rw [driveRun]
    split
    · cases hsb : (serviceBatch registry run.tool_calls).2 with
      | error e => simp only [hsb, DriveResult.subs]; exact h
      | ok outs =>
        simp only [hsb]
        apply ih
        intro b hb
        rcases List.mem_append.mp hb with h1 | h2
        · exact h b h1
        · have hb2 : b = (run.tool_calls, outs) := by simpa using h2
          subst hb2
          exact serviceBatch_ok registry run.tool_calls outs hsb
    · exact h

/-- C3: whenever a run is in the requires-tool-input state, every
batch the bridge hands to submit-tool-outputs pairs exactly one output
entry with each pending call of that batch, keyed by the identifier of
the originating call, and each batch goes out in a single submission
(one trace entry per submit operation); a batch with fewer entries
than its pending calls is never submitted. -/
theorem C3_full_batches (registry : Registry) (submit : Run → List ToolOutput → Run)
    (fuel : Nat) (run : Run) :
    FullBatches (driveRun registry submit fuel run [] []).subs :=
  driveRun_subs_full registry submit fuel run [] [] (by intro b hb; simp at hb)

/-- Witness for C3 on the section 8 scenario: a run with two pending
calls leads to exactly one submitted batch, that batch is full, and
the run advances to completed. -/
theorem C3_full_batches_witness :
    FullBatches (driveRun demoRegistry demoSubmit 2 twoCallRun [] []).subs ∧
    driveRun demoRegistry demoSubmit 2 twoCallRun [] [] =
      .done idleRun
        [(twoCallRun.tool_calls,
          [{ tool_call_id := "call1", output := "scraped args1" },
           { tool_call_id := "call2", output := "results args2" }])]
        [("page_scrape", "args1"), ("search_internet", "args2")] :=
  ⟨C3_full_batches demoRegistry demoSubmit 2 twoCallRun, by decide⟩

/-- Unfolding of one service step: unknown tool name. -/
theorem serviceBatch_cons_none (registry : Registry) (c : ToolCall) (cs : List ToolCall)
    (h : registry c.fname = none) :
    serviceBatch registry (c :: cs) = ([], .error (.unknownTool c.fname)) := by
  simp [serviceBatch, h]

/-- Unfolding of one service step: the tool raises. -/
theorem serviceBatch_cons_err (registry : Registry) (c : ToolCall) (cs : List ToolCall)
    (f : ToolFn) (msg : String) (hf : registry c.fname = some f)
    (he : f c.arguments = .error msg) :
    serviceBatch registry (c :: cs) =
      ([(c.fname, c.arguments)], .error (.toolError c.fname msg)) := by
  simp [serviceBatch, hf, he]

/-- Unfolding of one service step: the tool succeeds, the rest errors. -/
theorem serviceBatch_cons_ok_err (registry : Registry) (c : ToolCall) (cs : List ToolCall)
    (f : ToolFn) (out : String) (e : ExecErr) (hf : registry c.fname = some f)
    (ho : f c.arguments = .ok out) (hrest : (serviceBatch registry cs).2 = .error e) :
    serviceBatch registry (c :: cs) =
      ((c.fname, c.arguments) :: (serviceBatch registry cs).1, .error e) := by
  simp [serviceBatch, hf, ho, hrest]

/-- Unfolding of one service step: the tool succeeds, the rest succeeds. -/
theorem serviceBatch_cons_ok_ok (registry : Registry) (c : ToolCall) (cs : List ToolCall)
    (f : ToolFn) (out : String) (outs : List ToolOutput) (hf : registry c.fname = some f)
    (ho : f c.arguments = .ok out) (hrest : (serviceBatch registry cs).2 = .ok outs) :
    serviceBatch registry (c :: cs) =
      ((c.fname, c.arguments) :: (serviceBatch registry cs).1,
        .ok ({ tool_call_id := c.id, output := out } :: outs)) := by
  simp [serviceBatch, hf, ho, hrest]

/-- If some pending call names a function the registry does not own,
the service loop aborts with an error and never invokes any function
under that name. -/
theorem serviceBatch_unknown (registry : Registry) (c : ToolCall) :
    ∀ calls, c ∈ calls → registry c.fname = none →
      (∃ e, (serviceBatch registry calls).2 = .error e) ∧
      ∀ pr ∈ (serviceBatch registry calls).1, pr.1 ≠ c.fname := by
  intro calls
  induction calls with
  | nil => intro hmem; simp at hmem
  | cons c1 cs ih =>
    intro hmem hnone
    cases hr : registry c1.fname with
    | none =>
      rw [serviceBatch_cons_none registry c1 cs hr]
      refine ⟨⟨.unknownTool c1.fname, rfl⟩, ?_⟩
      intro pr hpr
      simp at hpr
    | some f =>
      have hne : c1.fname ≠ c.fname := by
        intro hEq
        rw [hEq, hnone] at hr
        exact Option.noConfusion hr
      have hmem1 : c ∈ cs := by
        rcases List.mem_cons.mp hmem with h1 | h1
        · exact absurd (congrArg ToolCall.fname h1.symm) hne
        · exact h1
      obtain ⟨⟨e, he⟩, hinvs⟩ := ih hmem1 hnone
      cases hf : f c1.arguments with
      | error msg =>
        rw [serviceBatch_cons_err registry c1 cs f msg hr hf]
        refine ⟨⟨.toolError c1.fname msg, rfl⟩, ?_⟩
        intro pr hpr
        simp at hpr
        rw [hpr]
        exact hne
      | ok out =>
        rw [serviceBatch_cons_ok_err registry c1 cs f out e hr hf he]
        refine ⟨⟨e, rfl⟩, ?_⟩
        intro pr hpr
        rcases List.mem_cons.mp hpr with h1 | h1
        · rw [h1]; exact hne
        · exact hinvs pr h1

/-- C6: a pending tool call naming a function absent from the tool
registry makes the bridge fail the run with a fatal error before any
submission: no output batch at all goes back to the run, and no
invocation under the unknown name ever happens; the call is never
silently skipped nor answered. -/
theorem C6_unknown_tool_fails (registry : Registry)
    (submit : Run → List ToolOutput → Run) (fuel : Nat) (run : Run) (c : ToolCall)
    (hst : run.status = "requires_action")
    (hmem : c ∈ run.tool_calls)
    (hnone : registry c.fname = none) :
    ∃ e invs, driveRun registry submit (fuel + 1) run [] [] = .fail e [] invs ∧
      ∀ pr ∈ invs, pr.1 ≠ c.fname := by
  obtain ⟨⟨e, he⟩, hinvs⟩ := serviceBatch_unknown registry c run.tool_calls hmem hnone
  refine ⟨e, (serviceBatch registry run.tool_calls).1, ?_, hinvs⟩
  rw [driveRun]
  simp only [hst, if_pos, he, List.nil_append]

/-- Witness for C6: the empty registry rejects the two-call run with a
fatal error and an empty invocation trace. -/
theorem C6_unknown_tool_fails_witness :
    ∃ e invs,
      driveRun emptyRegistry demoSubmit 2 twoCallRun [] [] = .fail e [] invs ∧
      ∀ pr ∈ invs, pr.1 ≠ "page_scrape" :=
  C6_unknown_tool_fails emptyRegistry demoSubmit 1 twoCallRun
    { id := "call1", fname := "page_scrape", arguments := "args1" }
    rfl (by decide) rfl

/-- Resolving a batch whose earlier calls all succeed and whose next
call raises: every earlier tool runs exactly once, the raising tool
runs exactly once (no retry), and the loop aborts with that error. -/
theorem serviceBatch_toolError (registry : Registry) :
    ∀ (pre : List ToolCall) (c : ToolCall) (post : List ToolCall) (f : ToolFn)
      (msg : String),
      (∀ c1 ∈ pre, ∃ g out, registry c1.fname = some g ∧ g c1.arguments = .ok out) →
      registry c.fname = some f → f c.arguments = .error msg →
      serviceBatch registry (pre ++ c :: post) =
        (pre.map (fun c1 => (c1.fname, c1.arguments)) ++ [(c.fname, c.arguments)],
         .error (.toolError c.fname msg)) := by
  intro pre
  induction pre with
  | nil =>
    intro c post f msg _ hf hferr
    simp only [List.nil_append, List.map_nil]
    rw [serviceBatch_cons_err registry c post f msg hf hferr]
  | cons c1 pre1 ih =>
    intro c post f msg hpre hf hferr
    obtain ⟨g, out, hg, hgo⟩ := hpre c1 (by simp)
    have hrec := ih c post f msg (fun x hx => hpre x (by simp [hx])) hf hferr
    rw [List.cons_append,
      serviceBatch_cons_ok_err registry c1 (pre1 ++ c :: post) g out
        (.toolError c.fname msg) hg hgo (by rw [hrec]),
      hrec]
    simp

/-- Setting a slot to the value it already holds is the identity. -/
theorem list_set_same {α : Type} : ∀ (l : List α) (i : Nat) (a : α),
    l[i]? = some a → l.set i a = l := by
  intro l
  induction l with
  | nil => intro i a h; simp at h
  | cons x xs ih =>
    intro i a h
    cases i with
    | zero => simp at h; simp [h]
    | succ n =>
      simp at h
      simp only [List.set_cons_succ]
      rw [ih n a h]

/-- Inserting a task whose title is already a key leaves the title
list unchanged. -/
theorem dictInsert_titles_present (m : List Task) (t : Task)
    (h : m.any (fun u => u.title == t.title) = true) :
    (dictInsert m t).map Task.title = m.map Task.title := by
  unfold dictInsert
  rw [if_pos h, List.map_map]
  apply List.map_congr_left
  intro u _
  simp only [Function.comp_apply]
  split
  · next hu => exact (eq_of_beq hu).symm
  · rfl

/-- Inserting a task under a fresh title appends its title. -/
theorem dictInsert_titles_absent (m : List Task) (t : Task)
    (h : m.any (fun u => u.title == t.title) = false) :
    (dictInsert m t).map Task.title = m.map Task.title ++ [t.title] := by
  unfold dictInsert
  rw [if_neg (by simp [h]), List.map_append]
  rfl

/-- The dict build keeps the key list duplicate free. -/
theorem foldl_dictInsert_nodup : ∀ (ts acc : List Task), (acc.map Task.title).Nodup →
    ((List.foldl dictInsert acc ts).map Task.title).Nodup := by
  intro ts
  induction ts with
  | nil => intro acc h; simpa using h
  | cons t ts1 ih =>
    intro acc h
    rw [List.foldl_cons]
    apply ih
    cases hany : acc.any (fun u => u.title == t.title) with
    | true => rw [dictInsert_titles_present acc t hany]; exact h
    | false =>
      rw [dictInsert_titles_absent acc t hany, List.nodup_append]
      refine ⟨h, List.nodup_singleton _, ?_⟩
      intro a ha hb
      simp only [List.mem_singleton] at hb
      subst hb
      obtain ⟨u, hu, hut⟩ := List.mem_map.mp ha
      have := List.any_eq_false.mp hany u hu
      simp [hut] at this

/-- The dict has pairwise distinct keys. -/
theorem buildTasks_titles_nodup (ts : List Task) :
    ((buildTasks ts).map Task.title).Nodup :=
  foldl_dictInsert_nodup ts [] (by simp)

/-- With duplicate-free titles, the dict lookup of a slot value's
title returns exactly that slot value. -/
theorem lookup_get_nodup : ∀ (m : List Task), (m.map Task.title).Nodup →
    ∀ (i : Nat) (t : Task), m[i]? = some t → lookupTask m t.title = some t := by
  intro m
  induction m with
  | nil => intro _ i t h; simp at h
  | cons u m1 ih =>
    intro hnd i t h
    rw [List.map_cons, List.nodup_cons] at hnd
    cases i with
    | zero =>
      simp at h
      subst h
      simp [lookupTask, List.find?]
    | succ n =>
      simp at h
      have hmem : t ∈ m1 := List.getElem?_mem h
      have hne : (u.title == t.title) = false := by
        simp only [beq_eq_false_iff_ne, ne_eq]
        intro hEq
        exact hnd.1 (hEq ▸ List.mem_map_of_mem Task.title hmem)
      rw [lookupTask, List.find?_cons_of_neg _ (by simp [hne])]
      exact ih hnd.2 n t h

/-- A TaskStep never changes the title. -/
theorem TaskStep.title_eq {t t1 : Task} (h : TaskStep t t1) : t1.title = t.title := by
  rcases h with h | h <;> rw [h]

/-- A TaskStep never changes the dependency list. -/
theorem TaskStep.deps_eq {t t1 : Task} (h : TaskStep t t1) :
    t1.depends_on = t.depends_on := by
  rcases h with h | h <;> rw [h]

/-- A TaskStep never clears the done flag. -/
theorem TaskStep.done_mono {t t1 : Task} (h : TaskStep t t1) (hd : t.done = true) :
    t1.done = true := by
  rcases h with h | h <;> rw [h]
  exact hd

/-- Leaving a task alone is a TaskStep. -/
theorem TaskStep.step_refl (t : Task) : TaskStep t t := Or.inl rfl

/-- TaskSteps compose. -/
theorem TaskStep.step_trans {a b c : Task} (h1 : TaskStep a b) (h2 : TaskStep b c) :
    TaskStep a c := by
  rcases h1 with h1 | h1 <;> rcases h2 with h2 | h2 <;> subst h1 <;> subst h2
  · exact Or.inl rfl
  · exact Or.inr rfl
  · exact Or.inr rfl
  · exact Or.inr rfl

/-- TasksMono is reflexive. -/
theorem TasksMono.mono_refl (m : List Task) : TasksMono m m :=
  List.forall₂_same.mpr (fun t _ => TaskStep.step_refl t)

/-- TasksMono composes. -/
theorem TasksMono.mono_trans {a b c : List Task} (h1 : TasksMono a b) (h2 : TasksMono b c) :
    TasksMono a c := by
  induction h1 generalizing c with
  | nil => cases h2; exact .nil
  | cons hab _ ih =>
    cases h2 with
    | cons hbc h2t => exact .cons (hab.step_trans hbc) (ih h2t)

/-- TasksMono preserves the slot count. -/
theorem TasksMono.len {m m1 : List Task} (h : TasksMono m m1) : m1.length = m.length :=
  h.length_eq.symm

/-- Setting one done flag is a TasksMono step. -/
theorem TasksMono.set : ∀ (m : List Task) (i : Nat) (t : Task), m[i]? = some t →
    TasksMono m (m.set i { t with done := true }) := by
  intro m
  induction m with
  | nil => intro i t h; simp at h
  | cons u m1 ih =>
    intro i t h
    cases i with
    | zero =>
      simp at h
      subst h
      rw [List.set_cons_zero]
      exact .cons (Or.inr rfl) (TasksMono.mono_refl m1)
    | succ n =>
      simp at h
      rw [List.set_cons_succ]
      exact .cons (TaskStep.step_refl u) (ih n t h)

/-- TasksMono preserves the title list. -/
theorem TasksMono.titles {m m1 : List Task} (h : TasksMono m m1) :
    m1.map Task.title = m.map Task.title := by
  induction h with
  | nil => rfl
  | cons h1 _ ih => simp [h1.title_eq, ih]

/-- Every final slot value comes from an initial one by a TaskStep. -/
theorem TasksMono.mem_right {m m1 : List Task} (h : TasksMono m m1) :
    ∀ t1 ∈ m1, ∃ t ∈ m, TaskStep t t1 := by
  induction h with
  | nil => intro t1 h1; simp at h1
  | cons h1 _ ih =>
    intro t1 hmem
    rcases List.mem_cons.mp hmem with hEq | hmem1
    · exact ⟨_, by simp, hEq ▸ h1⟩
    · obtain ⟨t, ht, hs⟩ := ih t1 hmem1
      exact ⟨t, by simp [ht], hs⟩

/-- Unfolding of one readiness step: missing dependency. -/
theorem checkDeps_cons_none {m : List Task} {d : String} (ds : List String)
    (hl : lookupTask m d = none) : checkDeps m (d :: ds) = .error d := by
  simp [checkDeps, hl]

/-- Unfolding of one readiness step: done dependency. -/
theorem checkDeps_cons_done {m : List Task} {d : String} {t : Task} (ds : List String)
    (hl : lookupTask m d = some t) (hd : t.done = true) :
    checkDeps m (d :: ds) = checkDeps m ds := by
  simp [checkDeps, hl, hd]

/-- Unfolding of one readiness step: pending dependency. -/
theorem checkDeps_cons_notdone {m : List Task} {d : String} {t : Task} (ds : List String)
    (hl : lookupTask m d = some t) (hd : t.done = false) :
    checkDeps m (d :: ds) = .ok false := by
  simp [checkDeps, hl, hd]

/-- Dict lookup along a TasksMono step. -/
theorem lookupTask_mono {m m1 : List Task} (h : TasksMono m m1) :
    ∀ k t, lookupTask m k = some t →
      ∃ t1, lookupTask m1 k = some t1 ∧ TaskStep t t1 := by
  induction h with
  | nil => intro k t hl; simp [lookupTask] at hl
  | cons h1 h2 ih =>
    intro k t hl
    rw [lookupTask] at hl ⊢
    rename_i a b l1 l2
    by_cases hk : (a.title == k) = true
    · rw [List.find?_cons_of_pos (p := fun u => u.title == k) l1 hk] at hl
      cases hl
      rw [List.find?_cons_of_pos (p := fun u => u.title == k) l2
        (by show (b.title == k) = true; rw [h1.title_eq]; exact hk)]
      exact ⟨b, rfl, h1⟩
    · rw [List.find?_cons_of_neg (p := fun u => u.title == k) l1 hk] at hl
      rw [List.find?_cons_of_neg (p := fun u => u.title == k) l2
        (by show ¬(b.title == k) = true; rw [h1.title_eq]; exact hk)]
      exact ih k t hl

/-- A lookup fails exactly when no key equals the searched title. -/
theorem lookupTask_eq_none_iff (m : List Task) (k : String) :
    lookupTask m k = none ↔ ∀ s ∈ m.map Task.title, s ≠ k := by
  rw [lookupTask, List.find?_eq_none]
  constructor
  · intro h s hs hEq
    obtain ⟨t, ht, rfl⟩ := List.mem_map.mp hs
    exact h t ht (by simp [hEq])
  · intro h t ht hp
    exact h t.title (List.mem_map_of_mem _ ht) (by simpa using hp)

/-- A missing key stays missing along a TasksMono step. -/
theorem lookupTask_none_mono {m m1 : List Task} (h : TasksMono m m1) (k : String) :
    lookupTask m k = none → lookupTask m1 k = none := by
  rw [lookupTask_eq_none_iff, lookupTask_eq_none_iff, h.titles]
  exact id

/-- A successful lookup stays successful along a TasksMono step. -/
theorem lookupTask_isSome_mono {m m1 : List Task} (h : TasksMono m m1) (k : String) :
    (lookupTask m k).isSome = true → (lookupTask m1 k).isSome = true := by
  intro hs
  cases hl : lookupTask m k with
  | none => rw [hl] at hs; simp at hs
  | some t =>
    obtain ⟨t1, hl1, _⟩ := lookupTask_mono h k t hl
    simp [hl1]

/-- A ready task stays ready along a TasksMono step. -/
theorem checkDeps_true_mono {m m1 : List Task} (h : TasksMono m m1) :
    ∀ ds, checkDeps m ds = .ok true → checkDeps m1 ds = .ok true := by
  intro ds
  induction ds with
  | nil => intro _; rfl
  | cons d ds1 ih =>
    intro hc
    cases hl : lookupTask m d with
    | none => rw [checkDeps_cons_none ds1 hl] at hc; exact Except.noConfusion hc
    | some t =>
      by_cases hd : t.done = true
      · obtain ⟨t1, hl1, hstep⟩ := lookupTask_mono h d t hl
        rw [checkDeps_cons_done ds1 hl hd] at hc
        rw [checkDeps_cons_done ds1 hl1 (hstep.done_mono hd)]
        exact ih hc
      · rw [checkDeps_cons_notdone ds1 hl (Bool.eq_false_iff.mpr hd)] at hc
        simp at hc

/-- A readiness KeyError is stable along a TasksMono step: the scan
reaches the same missing title because the dependencies before it are
done and stay done. -/
theorem checkDeps_error_mono {m m1 : List Task} (h : TasksMono m m1) :
    ∀ ds d, checkDeps m ds = .error d → checkDeps m1 ds = .error d := by
  intro ds
  induction ds with
  | nil => intro d hc; exact Except.noConfusion hc
  | cons d0 ds1 ih =>
    intro d hc
    cases hl : lookupTask m d0 with
    | none =>
      rw [checkDeps_cons_none ds1 hl] at hc
      cases hc
      exact checkDeps_cons_none ds1 (lookupTask_none_mono h d0 hl)
    | some t =>
      obtain ⟨t1, hl1, hstep⟩ := lookupTask_mono h d0 t hl
      by_cases hd : t.done = true
      · rw [checkDeps_cons_done ds1 hl hd] at hc
        rw [checkDeps_cons_done ds1 hl1 (hstep.done_mono hd)]
        exact ih d hc
      · rw [checkDeps_cons_notdone ds1 hl (Bool.eq_false_iff.mpr hd)] at hc
        exact Except.noConfusion hc

/-- Dependency closure survives a TasksMono step. -/
theorem depsClosed_mono {m m1 : List Task} (h : TasksMono m m1)
    (hc : depsClosed m) : depsClosed m1 := by
  intro t1 hmem1 d hd
  obtain ⟨t, ht, hstep⟩ := h.mem_right t1 hmem1
  exact lookupTask_isSome_mono h d (hc t ht d (hstep.deps_eq ▸ hd))

/-- A rank certificate survives a TasksMono step. -/
theorem RankOk_mono {rank : String → Nat} {m m1 : List Task} (h : TasksMono m m1)
    (hr : RankOk rank m) : RankOk rank m1 := by
  intro t1 hmem1 d hd
  obtain ⟨t, ht, hstep⟩ := h.mem_right t1 hmem1
  rw [hstep.title_eq]
  exact hr t ht d (hstep.deps_eq ▸ hd)

/-- Count of done tasks across a cons cell. -/
theorem countDone_cons (u : Task) (l : List Task) :
    countDone (u :: l) = (if u.done = true then 1 else 0) + countDone l := by
  by_cases hu : u.done = true
  · simp [countDone, List.filter_cons, hu, Nat.add_comm]
  · simp [countDone, List.filter_cons, hu]

/-- The done count never exceeds the slot count. -/
theorem countDone_le_length (m : List Task) : countDone m ≤ m.length :=
  List.length_filter_le _ m

/-- Setting a pending done flag raises the done count by one. -/
theorem countDone_set : ∀ (m : List Task) (i : Nat) (t : Task), m[i]? = some t →
    t.done = false → countDone (m.set i { t with done := true }) = countDone m + 1 := by
  intro m
  induction m with
  | nil => intro i t h; simp at h
  | cons u m1 ih =>
    intro i t h hd
    cases i with
    | zero =>
      simp at h
      subst h
      rw [List.set_cons_zero, countDone_cons, countDone_cons]
      simp [hd]
      omega
    | succ n =>
      simp at h
      rw [List.set_cons_succ, countDone_cons, countDone_cons, ih n t h hd]
      omega

/-- A full done count means every task is done. -/
theorem all_done_of_countDone : ∀ m : List Task, countDone m = m.length →
    ∀ t ∈ m, t.done = true := by
  intro m
  induction m with
  | nil => simp
  | cons u l ih =>
    intro h t hmem
    rw [countDone_cons] at h
    have hle := countDone_le_length l
    by_cases hu : u.done = true
    · rw [if_pos hu] at h
      simp only [List.length_cons] at h
      rcases List.mem_cons.mp hmem with rfl | hm
      · exact hu
      · exact ih (by omega) t hm
    · rw [if_neg hu] at h
      simp only [List.length_cons] at h
      omega

/-- Unfolding of one scan step: slot out of range (never reached). -/
theorem passGo_cons_oob {registry : Registry} {env : Task → RunBehavior} {bfuel : Nat}
    {st : ExecState} {i : Nat} (is : List Nat) (newly : Nat) (h : st.m[i]? = none) :
    passGo registry env bfuel (i :: is) st newly =
      passGo registry env bfuel is st newly := by
  simp [passGo, h]

/-- Unfolding of one scan step: the task is already done. -/
theorem passGo_cons_done {registry : Registry} {env : Task → RunBehavior} {bfuel : Nat}
    {st : ExecState} {i : Nat} {t : Task} (is : List Nat) (newly : Nat)
    (h : st.m[i]? = some t) (hd : t.done = true) :
    passGo registry env bfuel (i :: is) st newly =
      passGo registry env bfuel is st newly := by
  simp [passGo, h, hd]

/-- Unfolding of one scan step: a dependency lookup raises KeyError. -/
theorem passGo_cons_keyerr {registry : Registry} {env : Task → RunBehavior} {bfuel : Nat}
    {st : ExecState} {i : Nat} {t : Task} {d : String} (is : List Nat) (newly : Nat)
    (h : st.m[i]? = some t) (hd : t.done = false)
    (hc : checkDeps st.m t.depends_on = .error d) :
    passGo registry env bfuel (i :: is) st newly = .fail (.keyError d) st t.title := by
  simp [passGo, h, hd, hc]

/-- Unfolding of one scan step: the task is not ready yet. -/
theorem passGo_cons_notready {registry : Registry} {env : Task → RunBehavior} {bfuel : Nat}
    {st : ExecState} {i : Nat} {t : Task} (is : List Nat) (newly : Nat)
    (h : st.m[i]? = some t) (hd : t.done = false)
    (hc : checkDeps st.m t.depends_on = .ok false) :
    passGo registry env bfuel (i :: is) st newly =
      passGo registry env bfuel is st newly := by
  simp [passGo, h, hd, hc]

/-- Unfolding of one scan step: the task run aborts. -/
theorem passGo_cons_taskfail {registry : Registry} {env : Task → RunBehavior} {bfuel : Nat}
    {st : ExecState} {i : Nat} {t : Task} {e : ExecErr} {th : List Message}
    (is : List Nat) (newly : Nat) (h : st.m[i]? = some t) (hd : t.done = false)
    (hc : checkDeps st.m t.depends_on = .ok true)
    (he : execTask registry env t st.thread bfuel = .fail e th) :
    passGo registry env bfuel (i :: is) st newly =
      .fail e { st with thread := th } t.title := by
  simp [passGo, h, hd, hc, he]

/-- Unfolding of one scan step: the bridge fuel ran out. -/
theorem passGo_cons_tasknofuel {registry : Registry} {env : Task → RunBehavior}
    {bfuel : Nat} {st : ExecState} {i : Nat} {t : Task} {th : List Message}
    (is : List Nat) (newly : Nat) (h : st.m[i]? = some t) (hd : t.done = false)
    (hc : checkDeps st.m t.depends_on = .ok true)
    (he : execTask registry env t st.thread bfuel = .noFuel th) :
    passGo registry env bfuel (i :: is) st newly = .noFuel { st with thread := th } := by
  simp [passGo, h, hd, hc, he]

/-- Unfolding of one scan step: the task executes and is marked done. -/
theorem passGo_cons_exec {registry : Registry} {env : Task → RunBehavior} {bfuel : Nat}
    {st : ExecState} {i : Nat} {t : Task} {th : List Message} {surfaced : Option String}
    (is : List Nat) (newly : Nat) (h : st.m[i]? = some t) (hd : t.done = false)
    (hc : checkDeps st.m t.depends_on = .ok true)
    (he : execTask registry env t st.thread bfuel = .ok th surfaced) :
    passGo registry env bfuel (i :: is) st newly =
      passGo registry env bfuel is
        { m := st.m.set i { t with done := true }, thread := th,
          trace := st.trace ++ [(t.title, surfaced)] } (newly + 1) := by
  simp [passGo, h, hd, hc, he]

/-- Whatever a scan round returns, the dict evolves monotonically and
the trace only grows. -/
theorem passGo_state_spec (registry : Registry) (env : Task → RunBehavior) (bfuel : Nat) :
    ∀ (is : List Nat) (st : ExecState) (newly : Nat),
      TasksMono st.m (passGo registry env bfuel is st newly).state.m ∧
      ∃ Δ, (passGo registry env bfuel is st newly).state.trace = st.trace ++ Δ := by
  intro is
  induction is with
  | nil =>
    intro st newly
    exact ⟨TasksMono.mono_refl st.m, [], by simp [passGo, PassResult.state]⟩
  | cons i is1 ih =>
    intro st newly
    cases h : st.m[i]? with
    | none => rw [passGo_cons_oob is1 newly h]; exact ih st newly
    | some t =>
      by_cases hd : t.done = true
      · rw [passGo_cons_done is1 newly h hd]; exact ih st newly
      · have hd0 : t.done = false := Bool.eq_false_iff.mpr hd
        cases hc : checkDeps st.m t.depends_on with
        | error d =>
          rw [passGo_cons_keyerr is1 newly h hd0 hc]
          exact ⟨TasksMono.mono_refl st.m, [], by simp [PassResult.state]⟩
        | ok ready =>
          cases ready with
          | false =>
            rw [passGo_cons_notready is1 newly h hd0 hc]
            exact ih st newly
          | true =>
            cases he : execTask registry env t st.thread bfuel with
            | fail e th =>
              rw [passGo_cons_taskfail is1 newly h hd0 hc he]
              exact ⟨TasksMono.mono_refl st.m, [], by simp [PassResult.state]⟩
            | noFuel th =>
              rw [passGo_cons_tasknofuel is1 newly h hd0 hc he]
              exact ⟨TasksMono.mono_refl st.m, [], by simp [PassResult.state]⟩
            | ok th surfaced =>
              rw [passGo_cons_exec is1 newly h hd0 hc he]
              obtain ⟨hmono, Δ, htr⟩ := ih
                { m := st.m.set i { t with done := true }, thread := th,
                  trace := st.trace ++ [(t.title, surfaced)] } (newly + 1)
              refine ⟨(TasksMono.set st.m i t h).mono_trans hmono, (t.title, surfaced) :: Δ, ?_⟩
              rw [htr]
              simp

/-- The done counter of one round: each newly counted task matches one
done flag set during the round. -/
theorem passGo_ok_count (registry : Registry) (env : Task → RunBehavior) (bfuel : Nat) :
    ∀ (is : List Nat) (st : ExecState) (newly : Nat) (st1 : ExecState) (newly1 : Nat),
      passGo registry env bfuel is st newly = .ok st1 newly1 →
      newly ≤ newly1 ∧ countDone st1.m + newly = countDone st.m + newly1 := by
  intro is
  induction is with
  | nil =>
    intro st newly st1 newly1 h
    rw [passGo] at h
    cases h
    exact ⟨Nat.le_refl _, rfl⟩
  | cons i is1 ih =>
    intro st newly st1 newly1 hp
    cases h : st.m[i]? with
    | none => rw [passGo_cons_oob is1 newly h] at hp; exact ih st newly st1 newly1 hp
    | some t =>
      by_cases hd : t.done = true
      · rw [passGo_cons_done is1 newly h hd] at hp; exact ih st newly st1 newly1 hp
      · have hd0 : t.done = false := Bool.eq_false_iff.mpr hd
        cases hc : checkDeps st.m t.depends_on with
        | error d =>
          rw [passGo_cons_keyerr is1 newly h hd0 hc] at hp
          exact PassResult.noConfusion hp
        | ok ready =>
          cases ready with
          | false =>
            rw [passGo_cons_notready is1 newly h hd0 hc] at hp
            exact ih st newly st1 newly1 hp
          | true =>
            cases he : execTask registry env t st.thread bfuel with
            | fail e th =>
              rw [passGo_cons_taskfail is1 newly h hd0 hc he] at hp
              exact PassResult.noConfusion hp
            | noFuel th =>
              rw [passGo_cons_tasknofuel is1 newly h hd0 hc he] at hp
              exact PassResult.noConfusion hp
            | ok th surfaced =>
              rw [passGo_cons_exec is1 newly h hd0 hc he] at hp
              obtain ⟨hle, hcount⟩ := ih _ _ _ _ hp
              have hset := countDone_set st.m i t h hd0
              refine ⟨by omega, ?_⟩
              simp only [hset] at hcount
              omega

/-- A readiness scan over resolvable dependencies never raises. -/
theorem checkDeps_ne_error (m : List Task) :
    ∀ ds, (∀ d ∈ ds, (lookupTask m d).isSome = true) →
      ∀ d0, checkDeps m ds ≠ .error d0 := by
  intro ds
  induction ds with
  | nil => intro _ d0 h; exact Except.noConfusion h
  | cons d ds1 ih =>
    intro hall d0
    cases hl : lookupTask m d with
    | none =>
      have := hall d (by simp)
      rw [hl] at this
      simp at this
    | some t =>
      by_cases hd : t.done = true
      · rw [checkDeps_cons_done ds1 hl hd]
        exact ih (fun x hx => hall x (by simp [hx])) d0
      · rw [checkDeps_cons_notdone ds1 hl (Bool.eq_false_iff.mpr hd)]
        exact fun h => Except.noConfusion h

/-- A positive readiness scan means every dependency resolves to a
done task. -/
theorem checkDeps_true_elim (m : List Task) :
    ∀ ds, checkDeps m ds = .ok true →
      ∀ d ∈ ds, ∃ td, lookupTask m d = some td ∧ td.done = true := by
  intro ds
  induction ds with
  | nil => intro _ d hd; simp at hd
  | cons d0 ds1 ih =>
    intro hc d hd
    cases hl : lookupTask m d0 with
    | none => rw [checkDeps_cons_none ds1 hl] at hc; exact Except.noConfusion hc
    | some t0 =>
      by_cases h0 : t0.done = true
      · rw [checkDeps_cons_done ds1 hl h0] at hc
        rcases List.mem_cons.mp hd with rfl | hd1
        · exact ⟨t0, hl, h0⟩
        · exact ih hc d hd1
      · rw [checkDeps_cons_notdone ds1 hl (Bool.eq_false_iff.mpr h0)] at hc
        simp at hc

/-- Dependencies that all resolve to done tasks pass the readiness
scan. -/
theorem checkDeps_all_done (m : List Task) :
    ∀ ds, (∀ d ∈ ds, ∃ td, lookupTask m d = some td ∧ td.done = true) →
      checkDeps m ds = .ok true := by
  intro ds
  induction ds with
  | nil => intro _; rfl
  | cons d ds1 ih =>
    intro hall
    obtain ⟨td, hl, hd⟩ := hall d (by simp)
    rw [checkDeps_cons_done ds1 hl hd]
    exact ih (fun x hx => hall x (by simp [hx]))

/-- A nonempty list has an element of minimal measure. -/
theorem exists_min_measure {α : Type} (f : α → Nat) :
    ∀ l : List α, l ≠ [] → ∃ a ∈ l, ∀ b ∈ l, f a ≤ f b := by
  intro l
  induction l with
  | nil => intro h; exact absurd rfl h
  | cons x l1 ih =>
    intro _
    cases l1 with
    | nil => exact ⟨x, by simp, by simp⟩
    | cons y l2 =>
      obtain ⟨a, hmem, hmin⟩ := ih (by simp)
      by_cases hax : f x ≤ f a
      · refine ⟨x, by simp, ?_⟩
        intro b hb
        rcases List.mem_cons.mp hb with rfl | hb1
        · exact Nat.le_refl _
        · exact Nat.le_trans hax (hmin b hb1)
      · refine ⟨a, by simp [hmem], ?_⟩
        intro b hb
        rcases List.mem_cons.mp hb with rfl | hb1
        · omega
        · exact hmin b hb1

/-- When every remote run reaches a terminal state within the bridge
fuel, executing a task always returns normally. -/
theorem execTask_ok_of_envOk {registry : Registry} {env : Task → RunBehavior}
    {bfuel : Nat} (henv : EnvOk registry env bfuel) (t : Task) (thread : List Message) :
    ∃ th surfaced, execTask registry env t thread bfuel = .ok th surfaced := by
  have hd := henv t
  cases hdr : driveRun registry (env t).submit bfuel (env t).run0 [] [] with
  | fail e s v => rw [hdr] at hd; simp [DriveResult.isDone] at hd
  | noFuel s v => rw [hdr] at hd; simp [DriveResult.isDone] at hd
  | done run subs invs =>
    cases hrev : ((thread ++ [({ role := "user", content := t.instructions } : Message)]) ++
        (env t).newMessages).reverse with
    | nil =>
      exfalso
      have h0 := List.reverse_eq_nil_iff.mp hrev
      simp at h0
    | cons mr rest =>
      refine ⟨(thread ++ [({ role := "user", content := t.instructions } : Message)]) ++
        (env t).newMessages,
        if mr.role = "assistant" then some mr.content else none, ?_⟩
      simp only [execTask, hdr]
      rw [List.append_assoc] at hrev ⊢
      rw [hrev]

/-- Under dependency closure and a well-behaved environment, a scan
round always returns normally. -/
theorem passGo_total (registry : Registry) (env : Task → RunBehavior) (bfuel : Nat)
    (henv : EnvOk registry env bfuel) :
    ∀ (is : List Nat) (st : ExecState) (newly : Nat), depsClosed st.m →
      ∃ st1 newly1, passGo registry env bfuel is st newly = .ok st1 newly1 := by
  intro is
  induction is with
  | nil => intro st newly _; exact ⟨st, newly, by rw [passGo]⟩
  | cons i is1 ih =>
    intro st newly hclosed
    cases h : st.m[i]? with
    | none => rw [passGo_cons_oob is1 newly h]; exact ih st newly hclosed
    | some t =>
      by_cases hd : t.done = true
      · rw [passGo_cons_done is1 newly h hd]; exact ih st newly hclosed
      · have hd0 : t.done = false := Bool.eq_false_iff.mpr hd
        have hmem : t ∈ st.m := List.getElem?_mem h
        cases hc : checkDeps st.m t.depends_on with
        | error d =>
          exact absurd hc (checkDeps_ne_error st.m t.depends_on (hclosed t hmem) d)
        | ok ready =>
          cases ready with
          | false => rw [passGo_cons_notready is1 newly h hd0 hc]; exact ih st newly hclosed
          | true =>
            obtain ⟨th, surfaced, he⟩ := execTask_ok_of_envOk henv t st.thread
            rw [passGo_cons_exec is1 newly h hd0 hc he]
            exact ih _ (newly + 1)
              (depsClosed_mono (TasksMono.set st.m i t h) hclosed)

/-- With a ranked (acyclic) closed dependency graph and at least one
pending task, some pending task is ready: take one of minimal rank. -/
theorem exists_ready (m : List Task) (rank : String → Nat)
    (hr : RankOk rank m) (hclosed : depsClosed m)
    (hex : ∃ t ∈ m, t.done = false) :
    ∃ (i : Nat) (t : Task), m[i]? = some t ∧ t.done = false ∧
      checkDeps m t.depends_on = .ok true := by
  obtain ⟨t0, hmem0, hd0⟩ := hex
  have hne : m.filter (fun t => !t.done) ≠ [] := by
    intro hnil
    have hm : t0 ∈ m.filter (fun t => !t.done) :=
      List.mem_filter.mpr ⟨hmem0, by simp [hd0]⟩
    rw [hnil] at hm
    simp at hm
  obtain ⟨a, hamem, hmin⟩ := exists_min_measure (fun t => rank t.title) _ hne
  have hamem1 : a ∈ m := (List.mem_filter.mp hamem).1
  have hadone : a.done = false := by
    have := (List.mem_filter.mp hamem).2
    simpa using this
  obtain ⟨i, hi⟩ := List.mem_iff_getElem?.mp hamem1
  refine ⟨i, a, hi, hadone, ?_⟩
  apply checkDeps_all_done
  intro d hd
  cases hl : lookupTask m d with
  | none =>
    have := hclosed a hamem1 d hd
    rw [hl] at this
    simp at this
  | some td =>
    refine ⟨td, rfl, ?_⟩
    by_contra hnd
    have htdf : td.done = false := Bool.eq_false_iff.mpr hnd
    have htdm : td ∈ m := List.mem_of_find?_eq_some hl
    have htdtitle : td.title = d := by
      have := List.find?_some hl
      simpa using this
    have htdfil : td ∈ m.filter (fun t => !t.done) :=
      List.mem_filter.mpr ⟨htdm, by simp [htdf]⟩
    have hge := hmin td htdfil
    have hlt := hr a hamem1 d hd
    rw [htdtitle] at hge
    omega

/-- A scan round that meets a ready pending task counts at least one
newly done task. -/
theorem passGo_progress (registry : Registry) (env : Task → RunBehavior) (bfuel : Nat)
    (henv : EnvOk registry env bfuel) :
    ∀ (is : List Nat) (st : ExecState) (newly : Nat) (i : Nat) (t : Task),
      depsClosed st.m → i ∈ is → st.m[i]? = some t → t.done = false →
      checkDeps st.m t.depends_on = .ok true →
      ∃ st1 newly1, passGo registry env bfuel is st newly = .ok st1 newly1 ∧
        newly + 1 ≤ newly1 := by
  intro is
  induction is with
  | nil => intro st newly i t _ hmem; simp at hmem
  | cons j is1 ih =>
    intro st newly i t hclosed hmem h hd hc
    by_cases hji : j = i
    · subst hji
      obtain ⟨th, surfaced, he⟩ := execTask_ok_of_envOk henv t st.thread
      rw [passGo_cons_exec is1 newly h hd hc he]
      obtain ⟨st1, newly1, hp⟩ := passGo_total registry env bfuel henv is1
        { m := st.m.set j { t with done := true }, thread := th,
          trace := st.trace ++ [(t.title, surfaced)] } (newly + 1)
        (depsClosed_mono (TasksMono.set st.m j t h) hclosed)
      exact ⟨st1, newly1, hp, (passGo_ok_count registry env bfuel is1 _ _ _ _ hp).1⟩
    · have hmem1 : i ∈ is1 := by
        rcases List.mem_cons.mp hmem with rfl | h1
        · exact absurd rfl hji
        · exact h1
      cases h2 : st.m[j]? with
      | none => rw [passGo_cons_oob is1 newly h2]; exact ih st newly i t hclosed hmem1 h hd hc
      | some u =>
        by_cases hu : u.done = true
        · rw [passGo_cons_done is1 newly h2 hu]
          exact ih st newly i t hclosed hmem1 h hd hc
        · have hu0 : u.done = false := Bool.eq_false_iff.mpr hu
          have humem : u ∈ st.m := List.getElem?_mem h2
          cases hc2 : checkDeps st.m u.depends_on with
          | error d =>
            exact absurd hc2 (checkDeps_ne_error st.m u.depends_on (hclosed u humem) d)
          | ok ready =>
            cases ready with
            | false =>
              rw [passGo_cons_notready is1 newly h2 hu0 hc2]
              exact ih st newly i t hclosed hmem1 h hd hc
            | true =>
              obtain ⟨th, surfaced, he⟩ := execTask_ok_of_envOk henv u st.thread
              rw [passGo_cons_exec is1 newly h2 hu0 hc2 he]
              have hmono := TasksMono.set st.m j u h2
              obtain ⟨st1, newly1, hp, hle⟩ := ih
                { m := st.m.set j { u with done := true }, thread := th,
                  trace := st.trace ++ [(u.title, surfaced)] } (newly + 1) i t
                (depsClosed_mono hmono hclosed) hmem1
                (by simpa using (List.getElem?_set_ne (by omega : j ≠ i)).trans h)
                hd (checkDeps_true_mono hmono t.depends_on hc)
              exact ⟨st1, newly1, hp, by omega⟩

/-- Distinct slots of a duplicate-free dict carry distinct titles. -/
theorem nodup_titles_ne (m : List Task) (hnd : (m.map Task.title).Nodup)
    {i j : Nat} {u t : Task} (hij : i ≠ j) (hu : m[i]? = some u) (ht : m[j]? = some t) :
    u.title ≠ t.title := by
  intro hEq
  have h1 : (m.map Task.title)[i]? = some u.title := by
    rw [List.getElem?_map, hu]; rfl
  have h2 : (m.map Task.title)[j]? = some t.title := by
    rw [List.getElem?_map, ht]; rfl
  rw [hEq] at h1
  have hi : i < (m.map Task.title).length :=
    (List.getElem?_eq_some_iff.mp h1).1
  exact hij (List.getElem?_inj hi hnd (h1.trans h2.symm))

/-- A title that occurs as a dict key can be looked up. -/
theorem lookup_isSome_of_mem_titles (m : List Task) (s : String)
    (h : s ∈ m.map Task.title) : (lookupTask m s).isSome = true := by
  rw [lookupTask, List.find?_isSome]
  obtain ⟨t, ht, rfl⟩ := List.mem_map.mp h
  exact ⟨t, ht, by simp⟩

/-- Reading back the slot just set. -/
theorem getElem?_set_self_task : ∀ (l : List Task) (i : Nat) (a : Task), i < l.length →
    (l.set i a)[i]? = some a := by
  intro l
  induction l with
  | nil => intro i a h; simp at h
  | cons x xs ih =>
    intro i a h
    cases i with
    | zero => simp
    | succ n =>
      simp only [List.set_cons_succ, List.getElem?_cons_succ]
      exact ih n a (by simpa using h)

/-- One scan round preserves the execution invariants: done flags agree
with the trace, executed titles are dict keys and pairwise distinct,
and every executed task follows all of its dependencies. -/
theorem passGo_inv (registry : Registry) (env : Task → RunBehavior) (bfuel : Nat) :
    ∀ (is : List Nat) (st : ExecState) (newly : Nat) (st1 : ExecState) (newly1 : Nat),
      passGo registry env bfuel is st newly = .ok st1 newly1 →
      (st.m.map Task.title).Nodup →
      DT st → (st.trace.map Prod.fst).Nodup → TraceSub st → DO st →
      DT st1 ∧ (st1.trace.map Prod.fst).Nodup ∧ TraceSub st1 ∧ DO st1 := by
  intro is
  induction is with
  | nil =>
    intro st newly st1 newly1 hp _ h1 h2 h3 h4
    rw [passGo] at hp
    cases hp
    exact ⟨h1, h2, h3, h4⟩
  | cons i is1 ih =>
    intro st newly st1 newly1 hp hnd hDT htrnd hTS hDO
    cases h : st.m[i]? with
    | none =>
      rw [passGo_cons_oob is1 newly h] at hp
      exact ih _ _ _ _ hp hnd hDT htrnd hTS hDO
    | some t =>
      by_cases hd : t.done = true
      · rw [passGo_cons_done is1 newly h hd] at hp
        exact ih _ _ _ _ hp hnd hDT htrnd hTS hDO
      · have hd0 : t.done = false := Bool.eq_false_iff.mpr hd
        cases hc : checkDeps st.m t.depends_on with
        | error d =>
          rw [passGo_cons_keyerr is1 newly h hd0 hc] at hp
          exact PassResult.noConfusion hp
        | ok ready =>
          cases ready with
          | false =>
            rw [passGo_cons_notready is1 newly h hd0 hc] at hp
            exact ih _ _ _ _ hp hnd hDT htrnd hTS hDO
          | true =>
            cases he : execTask registry env t st.thread bfuel with
            | fail e th =>
              rw [passGo_cons_taskfail is1 newly h hd0 hc he] at hp
              exact PassResult.noConfusion hp
            | noFuel th =>
              rw [passGo_cons_tasknofuel is1 newly h hd0 hc he] at hp
              exact PassResult.noConfusion hp
            | ok th surfaced =>
              rw [passGo_cons_exec is1 newly h hd0 hc he] at hp
              have hlen : i < st.m.length := (List.getElem?_eq_some_iff.mp h).1
              have hmono := TasksMono.set st.m i t h
              have htitles : (st.m.set i { t with done := true }).map Task.title =
                  st.m.map Task.title := hmono.titles
              have hnd1 : ((st.m.set i { t with done := true }).map Task.title).Nodup := by
                rw [htitles]; exact hnd
              have htmem : t.title ∉ st.trace.map Prod.fst := by
                intro hmem
                have := (hDT i t h).mpr hmem
                rw [hd0] at this
                exact Bool.noConfusion this
              have hDT1 : DT (ExecState.mk (st.m.set i { t with done := true }) th
                  (st.trace ++ [(t.title, surfaced)])) := by
                intro j u hj
                simp only at hj ⊢
                by_cases hij : i = j
                · subst hij
                  rw [getElem?_set_self_task st.m i _ hlen] at hj
                  cases hj
                  simp
                · rw [List.getElem?_set_ne hij] at hj
                  have hneu : u.title ≠ t.title :=
                    nodup_titles_ne st.m hnd (fun hEq => hij hEq.symm) hj h
                  rw [List.map_append]
                  constructor
                  · intro hu
                    exact List.mem_append_left _ ((hDT j u hj).mp hu)
                  · intro hu
                    rcases List.mem_append.mp hu with h1 | h1
                    · exact (hDT j u hj).mpr h1
                    · simp at h1
                      exact absurd h1 hneu
              have htrnd1 : ((st.trace ++ [(t.title, surfaced)]).map Prod.fst).Nodup := by
                rw [List.map_append, List.nodup_append]
                refine ⟨htrnd, List.nodup_singleton _, ?_⟩
                intro a ha hb
                simp at hb
                subst hb
                exact htmem ha
              have hTS1 : TraceSub (ExecState.mk (st.m.set i { t with done := true }) th
                  (st.trace ++ [(t.title, surfaced)])) := by
                intro s hs
                simp only [List.map_append] at hs
                simp only [htitles]
                rcases List.mem_append.mp hs with h1 | h1
                · exact hTS s h1
                · simp at h1
                  subst h1
                  exact List.mem_map_of_mem Task.title (List.getElem?_mem h)
              have hDO1 : DO (ExecState.mk (st.m.set i { t with done := true }) th
                  (st.trace ++ [(t.title, surfaced)])) := by
                intro k ttl hk u hu hd1 hdep
                simp only [List.map_append] at hk ⊢
                have hklen : k < (st.trace.map Prod.fst).length + 1 := by
                  have := (List.getElem?_eq_some_iff.mp (by simpa using hk)).1
                  simpa using this
                by_cases hkl : k < (st.trace.map Prod.fst).length
                · have hkold : (st.trace.map Prod.fst)[k]? = some ttl := by
                    rw [List.getElem?_append] at hk
                    rwa [if_pos hkl] at hk
                  have httl : ttl ∈ st.m.map Task.title :=
                    hTS ttl (List.getElem?_mem hkold)
                  have hsome := lookup_isSome_of_mem_titles st.m ttl httl
                  cases hl0 : lookupTask st.m ttl with
                  | none => rw [hl0] at hsome; simp at hsome
                  | some u0 =>
                    obtain ⟨u1, hl1, hstep⟩ := lookupTask_mono hmono ttl u0 hl0
                    have huu : u = u1 := by
                      simp only at hu
                      rw [hu] at hl1
                      cases hl1
                      rfl
                    subst huu
                    have hdep0 : hd1 ∈ u0.depends_on := hstep.deps_eq ▸ hdep
                    have hin := hDO k ttl hkold u0 hl0 hd1 hdep0
                    rw [List.take_append_of_le_length (Nat.le_of_lt hkl)]
                    exact hin
                · have hkeq : k = (st.trace.map Prod.fst).length := by omega
                  subst hkeq
                  have httl : ttl = t.title := by
                    rw [List.getElem?_append, if_neg (by omega)] at hk
                    simp at hk
                    exact hk.symm
                  subst httl
                  have hlookt : lookupTask (st.m.set i { t with done := true }) t.title =
                      some { t with done := true } :=
                    lookup_get_nodup _ hnd1 i _ (getElem?_set_self_task st.m i _ hlen)
                  have huu : u = { t with done := true } := by
                    simp only at hu
                    rw [hu] at hlookt
                    cases hlookt
                    rfl
                  subst huu
                  obtain ⟨td, hld, hdone⟩ := checkDeps_true_elim st.m t.depends_on hc hd1
                    (by simpa using hdep)
                  have hdtitle : td.title = hd1 := by
                    have := List.find?_some hld
                    simpa using this
                  have htdmem : td ∈ st.m := List.mem_of_find?_eq_some hld
                  obtain ⟨jd, hjd⟩ := List.mem_iff_getElem?.mp htdmem
                  have hmemtr : td.title ∈ st.trace.map Prod.fst := (hDT jd td hjd).mp hdone
                  rw [List.take_append_of_le_length (Nat.le_refl _), List.take_length,
                    ← hdtitle]
                  exact hmemtr
              exact ih _ _ _ _ hp hnd1 hDT1 htrnd1 hTS1 hDO1

/-- When a round starts from a state whose trace ends with a given
entry, that entry keeps its position in the round's final trace. -/
theorem exec_title_pos (registry : Registry) (env : Task → RunBehavior) (bfuel : Nat)
    (is1 : List Nat) (stx : ExecState) (newlyx : Nat) (st1 : ExecState) (newly1 : Nat)
    (pre : List (String × Option String)) (e : String × Option String)
    (htr : stx.trace = pre ++ [e])
    (hp : passGo registry env bfuel is1 stx newlyx = .ok st1 newly1) :
    (st1.trace.map Prod.fst)[pre.length]? = some e.1 := by
  have hspec := (passGo_state_spec registry env bfuel is1 stx newlyx).2
  rw [hp] at hspec
  obtain ⟨Δ, hΔ⟩ := hspec
  simp only [PassResult.state] at hΔ
  rw [hΔ, htr, List.map_append, List.map_append]
  rw [List.getElem?_append, if_pos (by simp)]
  rw [List.getElem?_append, if_neg (by simp)]
  simp

/-- A pending task ready at the start of a round is executed during the
round: its title lands in the trace at or after the round-start trace
length. -/
theorem passGo_exec_pos (registry : Registry) (env : Task → RunBehavior) (bfuel : Nat) :
    ∀ (is : List Nat) (st : ExecState) (newly : Nat) (st1 : ExecState) (newly1 : Nat)
      (i : Nat) (t : Task),
      passGo registry env bfuel is st newly = .ok st1 newly1 →
      i ∈ is → st.m[i]? = some t → t.done = false →
      checkDeps st.m t.depends_on = .ok true →
      ∃ k, st.trace.length ≤ k ∧ (st1.trace.map Prod.fst)[k]? = some t.title := by
  intro is
  induction is with
  | nil => intro st newly st1 newly1 i t _ hmem; simp at hmem
  | cons j is1 ih =>
    intro st newly st1 newly1 i t hp hmem h hd hc
    by_cases hji : j = i
    · subst hji
      cases he : execTask registry env t st.thread bfuel with
      | fail e th =>
        rw [passGo_cons_taskfail is1 newly h hd hc he] at hp
        exact PassResult.noConfusion hp
      | noFuel th =>
        rw [passGo_cons_tasknofuel is1 newly h hd hc he] at hp
        exact PassResult.noConfusion hp
      | ok th surfaced =>
        rw [passGo_cons_exec is1 newly h hd hc he] at hp
        refine ⟨st.trace.length, Nat.le_refl _, ?_⟩
        exact exec_title_pos registry env bfuel is1 _ _ _ _ st.trace (t.title, surfaced)
          rfl hp
    · have hmem1 : i ∈ is1 := by
        rcases List.mem_cons.mp hmem with rfl | h1
        · exact absurd rfl hji
        · exact h1
      cases h2 : st.m[j]? with
      | none =>
        rw [passGo_cons_oob is1 newly h2] at hp
        exact ih st newly st1 newly1 i t hp hmem1 h hd hc
      | some u =>
        by_cases hu : u.done = true
        · rw [passGo_cons_done is1 newly h2 hu] at hp
          exact ih st newly st1 newly1 i t hp hmem1 h hd hc
        · have hu0 : u.done = false := Bool.eq_false_iff.mpr hu
          cases hc2 : checkDeps st.m u.depends_on with
          | error d =>
            rw [passGo_cons_keyerr is1 newly h2 hu0 hc2] at hp
            exact PassResult.noConfusion hp
          | ok ready =>
            cases ready with
            | false =>
              rw [passGo_cons_notready is1 newly h2 hu0 hc2] at hp
              exact ih st newly st1 newly1 i t hp hmem1 h hd hc
            | true =>
              cases he : execTask registry env u st.thread bfuel with
              | fail e th =>
                rw [passGo_cons_taskfail is1 newly h2 hu0 hc2 he] at hp
                exact PassResult.noConfusion hp
              | noFuel th =>
                rw [passGo_cons_tasknofuel is1 newly h2 hu0 hc2 he] at hp
                exact PassResult.noConfusion hp
              | ok th surfaced =>
                rw [passGo_cons_exec is1 newly h2 hu0 hc2 he] at hp
                have hmono := TasksMono.set st.m j u h2
                obtain ⟨k, hk1, hk2⟩ := ih _ _ _ _ i t hp hmem1
                  (by
                    show (st.m.set j { u with done := true })[i]? = some t
                    rw [List.getElem?_set_ne hji]
                    exact h)
                  hd (checkDeps_true_mono hmono t.depends_on hc)
                refine ⟨k, ?_, hk2⟩
                simp only [List.length_append] at hk1
                omega

/-- Two tasks both pending and ready at the start of a round execute
during that round in slot order. -/
theorem passGo_exec_order (registry : Registry) (env : Task → RunBehavior) (bfuel : Nat) :
    ∀ (is : List Nat) (st : ExecState) (newly : Nat) (st1 : ExecState) (newly1 : Nat)
      (i j : Nat) (ti tj : Task),
      passGo registry env bfuel is st newly = .ok st1 newly1 →
      List.Pairwise (· < ·) is →
      i ∈ is → j ∈ is → i < j →
      st.m[i]? = some ti → st.m[j]? = some tj →
      ti.done = false → tj.done = false →
      checkDeps st.m ti.depends_on = .ok true →
      checkDeps st.m tj.depends_on = .ok true →
      ∃ (k l : Nat), k < l ∧ (st1.trace.map Prod.fst)[k]? = some ti.title ∧
        (st1.trace.map Prod.fst)[l]? = some tj.title := by
  intro is
  induction is with
  | nil => intro st newly st1 newly1 i j ti tj _ _ hmem; simp at hmem
  | cons h0 is1 ih =>
    intro st newly st1 newly1 i j ti tj hp hpw hi hj hij hti htj hdi hdj hci hcj
    have hpw1 : List.Pairwise (· < ·) is1 := hpw.of_cons
    by_cases h0i : h0 = i
    · subst h0i
      have hjmem : j ∈ is1 := by
        rcases List.mem_cons.mp hj with rfl | h1
        · omega
        · exact h1
      cases he : execTask registry env ti st.thread bfuel with
      | fail e th =>
        rw [passGo_cons_taskfail is1 newly hti hdi hci he] at hp
        exact PassResult.noConfusion hp
      | noFuel th =>
        rw [passGo_cons_tasknofuel is1 newly hti hdi hci he] at hp
        exact PassResult.noConfusion hp
      | ok th surfaced =>
        rw [passGo_cons_exec is1 newly hti hdi hci he] at hp
        have hmono := TasksMono.set st.m h0 ti hti
        have htj1 : (st.m.set h0 { ti with done := true })[j]? = some tj := by
          rw [List.getElem?_set_ne (by omega)]
          exact htj
        obtain ⟨l, hlge, hlpos⟩ := passGo_exec_pos registry env bfuel is1 _ _ _ _ j tj
          hp hjmem htj1 hdj (checkDeps_true_mono hmono tj.depends_on hcj)
        refine ⟨st.trace.length, l, ?_, ?_, hlpos⟩
        · simp only [List.length_append, List.length_cons, List.length_nil] at hlge
          omega
        · exact exec_title_pos registry env bfuel is1 _ _ _ _ st.trace
            (ti.title, surfaced) rfl hp
    · have h0j : h0 ≠ j := by
        intro hEq
        subst hEq
        have hi1 : i ∈ is1 := by
          rcases List.mem_cons.mp hi with rfl | h1
          · exact absurd rfl h0i
          · exact h1
        have := (List.pairwise_cons.mp hpw).1 i hi1
        omega
      have hi1 : i ∈ is1 := by
        rcases List.mem_cons.mp hi with rfl | h1
        · exact absurd rfl h0i
        · exact h1
      have hj1 : j ∈ is1 := by
        rcases List.mem_cons.mp hj with rfl | h1
        · exact absurd rfl h0j
        · exact h1
      cases h2 : st.m[h0]? with
      | none =>
        rw [passGo_cons_oob is1 newly h2] at hp
        exact ih st newly st1 newly1 i j ti tj hp hpw1 hi1 hj1 hij hti htj hdi hdj hci hcj
      | some u =>
        by_cases hu : u.done = true
        · rw [passGo_cons_done is1 newly h2 hu] at hp
          exact ih st newly st1 newly1 i j ti tj hp hpw1 hi1 hj1 hij hti htj hdi hdj hci hcj
        · have hu0 : u.done = false := Bool.eq_false_iff.mpr hu
          cases hc2 : checkDeps st.m u.depends_on with
          | error d =>
            rw [passGo_cons_keyerr is1 newly h2 hu0 hc2] at hp
            exact PassResult.noConfusion hp
          | ok ready =>
            cases ready with
            | false =>
              rw [passGo_cons_notready is1 newly h2 hu0 hc2] at hp
              exact ih st newly st1 newly1 i j ti tj hp hpw1 hi1 hj1 hij hti htj hdi hdj hci hcj
            | true =>
              cases he : execTask registry env u st.thread bfuel with
              | fail e th =>
                rw [passGo_cons_taskfail is1 newly h2 hu0 hc2 he] at hp
                exact PassResult.noConfusion hp
              | noFuel th =>
                rw [passGo_cons_tasknofuel is1 newly h2 hu0 hc2 he] at hp
                exact PassResult.noConfusion hp
              | ok th surfaced =>
                rw [passGo_cons_exec is1 newly h2 hu0 hc2 he] at hp
                have hmono := TasksMono.set st.m h0 u h2
                exact ih _ _ _ _ i j ti tj hp hpw1 hi1 hj1 hij
                  (by
                    show (st.m.set h0 { u with done := true })[i]? = some ti
                    rw [List.getElem?_set_ne h0i]
                    exact hti)
                  (by
                    show (st.m.set h0 { u with done := true })[j]? = some tj
                    rw [List.getElem?_set_ne h0j]
                    exact htj)
                  hdi hdj
                  (checkDeps_true_mono hmono ti.depends_on hci)
                  (checkDeps_true_mono hmono tj.depends_on hcj)

/-- When every task is done the done count is full. -/
theorem countDone_eq_length_of_all : ∀ m : List Task, (∀ t ∈ m, t.done = true) →
    countDone m = m.length := by
  intro m
  induction m with
  | nil => intro _; rfl
  | cons u l ih =>
    intro h
    rw [countDone_cons, if_pos (h u (by simp))]
    have := ih (fun t ht => h t (by simp [ht]))
    simp [this]
    omega

/-- A position of a list keeps its entry after appending. -/
theorem getElem?_mono_append {α : Type} (A B : List α) (k : Nat) (x : α)
    (h : A[k]? = some x) : (A ++ B)[k]? = some x := by
  obtain ⟨hlt, _⟩ := List.getElem?_eq_some_iff.mp h
  rw [List.getElem?_append, if_pos hlt]
  exact h

/-- The scheduler loop under a well-behaved environment and a closed
ranked dependency graph: with fuel above the task count it terminates
normally with every dict value done, the execution invariants holding
for the final trace, and every recorded round-start state mutually
ordered with respect to the final trace. -/
theorem execLoop_run (registry : Registry) (env : Task → RunBehavior) (bfuel : Nat)
    (rank : String → Nat) (henv : EnvOk registry env bfuel) :
    ∀ (fuel : Nat) (st : ExecState) (dc : Nat) (snaps : List ExecState),
      depsClosed st.m → RankOk rank st.m → (st.m.map Task.title).Nodup →
      DT st → (st.trace.map Prod.fst).Nodup → TraceSub st → DO st →
      dc = countDone st.m → st.m.length - dc < fuel →
      ∃ (st1 : ExecState) (snew : List ExecState),
        execLoop registry env bfuel fuel st dc snaps = .ok st1 (snaps ++ snew) ∧
        TasksMono st.m st1.m ∧
        (∀ t ∈ st1.m, t.done = true) ∧
        DT st1 ∧ (st1.trace.map Prod.fst).Nodup ∧ TraceSub st1 ∧
        (∃ Δ, st1.trace = st.trace ++ Δ) ∧ DO st1 ∧
        (∀ s ∈ snew, MutualOrdered s st1.trace) := by
  intro fuel
  induction fuel with
  | zero =>
    intro st dc snaps _ _ _ _ _ _ _ _ hlt
    omega
  | succ n ih =>
    intro st dc snaps hclosed hrank hnd hDT htrnd hTS hDO hdc hlt
    rw [execLoop]
    by_cases hcond : dc < st.m.length
    · rw [if_pos hcond]
      obtain ⟨stp, newp, hp⟩ :=
        passGo_total registry env bfuel henv (List.range st.m.length) st 0 hclosed
      rw [hp]
      have hmonop : TasksMono st.m stp.m := by
        have hs := (passGo_state_spec registry env bfuel (List.range st.m.length) st 0).1
        rw [hp] at hs
        exact hs
      obtain ⟨Δp, htrp⟩ : ∃ Δ, stp.trace = st.trace ++ Δ := by
        have hs := (passGo_state_spec registry env bfuel (List.range st.m.length) st 0).2
        rw [hp] at hs
        exact hs
      obtain ⟨hDTp, htrndp, hTSp, hDOp⟩ :=
        passGo_inv registry env bfuel _ _ _ _ _ hp hnd hDT htrnd hTS hDO
      obtain ⟨-, hcountp⟩ := passGo_ok_count registry env bfuel _ _ _ _ _ hp
      have hpend : ∃ t ∈ st.m, t.done = false := by
        by_contra hall
        push_neg at hall
        have hfull : countDone st.m = st.m.length := by
          apply countDone_eq_length_of_all
          intro t ht
          cases hdone : t.done with
          | true => rfl
          | false => exact absurd hdone (hall t ht)
        omega
      obtain ⟨i, t, hit, htd, htc⟩ := exists_ready st.m rank hrank hclosed hpend
      have hilen : i < st.m.length := (List.getElem?_eq_some_iff.mp hit).1
      obtain ⟨stq, newq, hq, hge⟩ := passGo_progress registry env bfuel henv
        (List.range st.m.length) st 0 i t hclosed (List.mem_range.mpr hilen) hit htd htc
      rw [hp] at hq
      cases hq
      have hlen : stp.m.length = st.m.length := hmonop.len
      obtain ⟨st1, snew1, hloop, hmono1, halldone, hDT1, htrnd1, hTS1, hΔ1, hDO1, hmuts⟩ :=
        ih stp (dc + newp) (snaps ++ [st])
          (depsClosed_mono hmonop hclosed) (RankOk_mono hmonop hrank)
          (by rw [hmonop.titles]; exact hnd)
          hDTp htrndp hTSp hDOp
          (by omega)
          (by omega)
      obtain ⟨Δ1, htr1⟩ := hΔ1
      refine ⟨st1, [st] ++ snew1, ?_, hmonop.mono_trans hmono1, halldone, hDT1, htrnd1,
        hTS1, ⟨Δp ++ Δ1, by rw [htr1, htrp, List.append_assoc]⟩, hDO1, ?_⟩
      · show execLoop registry env bfuel n stp (dc + newp) (snaps ++ [st]) =
          ExecResult.ok st1 (snaps ++ ([st] ++ snew1))
        rw [hloop, List.append_assoc]
      · intro s hs
        rcases List.mem_cons.mp hs with rfl | hs1
        · intro a b ta tb hab ha hb hda hdb hca hcb
          obtain ⟨k, l, hkl, hkpos, hlpos⟩ := passGo_exec_order registry env bfuel
            (List.range s.m.length) s 0 stp newp a b ta tb hp
            (List.pairwise_lt_range s.m.length)
            (List.mem_range.mpr (List.getElem?_eq_some_iff.mp ha).1)
            (List.mem_range.mpr (List.getElem?_eq_some_iff.mp hb).1)
            hab ha hb hda hdb hca hcb
          refine ⟨k, l, hkl, ?_, ?_⟩
          · rw [htr1, List.map_append]
            exact getElem?_mono_append _ _ k _ hkpos
          · rw [htr1, List.map_append]
            exact getElem?_mono_append _ _ l _ hlpos
        · exact hmuts s hs1
    · rw [if_neg hcond]
      have hall : ∀ t ∈ st.m, t.done = true := by
        apply all_done_of_countDone
        have := countDone_le_length st.m
        omega
      exact ⟨st, [], by simp, TasksMono.mono_refl st.m, hall, hDT, htrnd, hTS,
        ⟨[], by simp⟩, hDO, by intro s hs; simp at hs⟩

/-- Slotwise reading along a TasksMono step. -/
theorem TasksMono.get? {m m1 : List Task} (h : TasksMono m m1) :
    ∀ (i : Nat) (t : Task), m[i]? = some t →
      ∃ t1, m1[i]? = some t1 ∧ TaskStep t t1 := by
  induction h with
  | nil => intro i t hi; simp at hi
  | cons h1 h2 ih =>
    intro i t hi
    cases i with
    | zero =>
      simp at hi
      subst hi
      exact ⟨_, by simp, h1⟩
    | succ n =>
      simp at hi
      obtain ⟨t1, ht1, hs⟩ := ih n t hi
      exact ⟨t1, by simpa using ht1, hs⟩

/-- Building the dict from a duplicate-free list appends every task. -/
theorem foldl_dictInsert_app : ∀ (ts acc : List Task),
    ((acc ++ ts).map Task.title).Nodup →
    List.foldl dictInsert acc ts = acc ++ ts := by
  intro ts
  induction ts with
  | nil => intro acc _; simp
  | cons t ts1 ih =>
    intro acc hnd
    rw [List.foldl_cons]
    have hany : acc.any (fun u => u.title == t.title) = false := by
      rw [List.any_eq_false]
      intro u hu
      have hne : u.title ≠ t.title := by
        rw [List.map_append] at hnd
        have hdisj := (List.nodup_append.mp hnd).2.2
        intro hEq
        exact hdisj (List.mem_map_of_mem Task.title hu) (by rw [hEq]; simp)
      simpa using hne
    have hstep : dictInsert acc t = acc ++ [t] := by
      unfold dictInsert
      rw [if_neg (by simp [hany])]
    rw [hstep]
    have heq : acc ++ t :: ts1 = (acc ++ [t]) ++ ts1 := by simp
    rw [heq]
    exact ih (acc ++ [t]) (by rw [← heq]; exact hnd)

/-- On duplicate-free titles the dict keeps the task list as is. -/
theorem buildTasks_eq_self (ts : List Task) (hnd : (ts.map Task.title).Nodup) :
    buildTasks ts = ts :=
  foldl_dictInsert_app ts [] (by simpa using hnd)

/-- All-pending task lists have a zero done count. -/
theorem countDone_zero : ∀ m : List Task, (∀ t ∈ m, t.done = false) →
    countDone m = 0 := by
  intro m
  induction m with
  | nil => intro _; rfl
  | cons u l ih =>
    intro h
    rw [countDone_cons, if_neg (by simp [h u (by simp)])]
    simpa using ih (fun t ht => h t (by simp [ht]))

/-- With duplicate-free titles, all dict values done means every task
object of the original list ends up done. -/
theorem finalTaskList_all_done (orig m : List Task)
    (hnd : (orig.map Task.title).Nodup)
    (htitles : m.map Task.title = orig.map Task.title)
    (hdone : ∀ t ∈ m, t.done = true) :
    ∀ t ∈ finalTaskList orig m, t.done = true := by
  intro t ht
  unfold finalTaskList at ht
  obtain ⟨ji, hji, hval⟩ := List.mem_map.mp ht
  have hgetji : orig[ji.1]? = some ji.2 := by
    have := List.mem_enum_iff_getElem?.mp (by exact hji)
    exact this
  by_cases hlast : ((orig.drop (ji.1 + 1)).all (fun u => u.title != ji.2.title)) = true
  · rw [if_pos hlast] at hval
    have hmem2 : ji.2 ∈ orig := List.getElem?_mem hgetji
    have htmem : ji.2.title ∈ m.map Task.title := by
      rw [htitles]
      exact List.mem_map_of_mem Task.title hmem2
    have hsome := lookup_isSome_of_mem_titles m ji.2.title htmem
    cases hl : lookupTask m ji.2.title with
    | none => rw [hl] at hsome; simp at hsome
    | some td =>
      rw [hl] at hval
      simp at hval
      rw [← hval]
      exact hdone td (List.mem_of_find?_eq_some hl)
  · exfalso
    have hlast0 : (orig.drop (ji.1 + 1)).all (fun u => u.title != ji.2.title) = false :=
      Bool.eq_false_iff.mpr hlast
    obtain ⟨u, hu, hup⟩ := List.all_eq_false.mp hlast0
    have huEq : u.title = ji.2.title := by simpa using hup
    obtain ⟨k, hk⟩ := List.mem_iff_getElem?.mp hu
    rw [List.getElem?_drop] at hk
    exact nodup_titles_ne orig hnd (by omega : ji.1 + 1 + k ≠ ji.1) hk hgetji huEq

/-- C2 (amended): on a project whose task titles are pairwise
distinct, whose tasks all start not done, whose dependency graph is
acyclic (certified by a rank function) with every referenced title
present, and whose remote runs all reach a terminal state, `execute`
terminates with every task done — both the dict values and the aliased
objects of `project.tasks` — having executed every task exactly once
(the trace is a permutation of the titles), never starting a task
before all of its dependencies are done, and executing tasks that are
mutually ready at a round start in declared list order. -/
theorem C2_acyclic_all_done (registry : Registry) (env : Task → RunBehavior)
    (bfuel : Nat) (p : Project) (rank : String → Nat)
    (hnd : (p.tasks.map Task.title).Nodup)
    (hfresh : ∀ t ∈ p.tasks, t.done = false)
    (hclosed : ∀ t ∈ p.tasks, ∀ d ∈ t.depends_on, ∃ u ∈ p.tasks, u.title = d)
    (hrank : ∀ t ∈ p.tasks, ∀ d ∈ t.depends_on, rank d < rank t.title)
    (henv : EnvOk registry env bfuel) :
    ∃ (st : ExecState) (snaps : List ExecState),
      executeModel registry env p bfuel (p.tasks.length + 1) = .ok st snaps ∧
      (∀ t ∈ st.m, t.done = true) ∧
      (∀ t ∈ finalTaskList p.tasks st.m, t.done = true) ∧
      (st.trace.map Prod.fst).Perm (p.tasks.map Task.title) ∧
      (∀ (k : Nat) (ttl : String), (st.trace.map Prod.fst)[k]? = some ttl →
        ∀ t ∈ p.tasks, t.title = ttl →
          ∀ d ∈ t.depends_on, d ∈ (st.trace.map Prod.fst).take k) ∧
      (∀ s ∈ snaps, MutualOrdered s st.trace) := by
  have hbuild : buildTasks p.tasks = p.tasks := buildTasks_eq_self p.tasks hnd
  have hclosed0 : depsClosed p.tasks := by
    intro t ht d hd
    obtain ⟨u, hu, hut⟩ := hclosed t ht d hd
    exact lookup_isSome_of_mem_titles p.tasks d
      (by rw [← hut]; exact List.mem_map_of_mem Task.title hu)
  have hDT0 : DT (ExecState.mk p.tasks [] []) := by
    intro i t hi
    constructor
    · intro hdone
      rw [hfresh t (List.getElem?_mem hi)] at hdone
      exact Bool.noConfusion hdone
    · intro hmem
      simp at hmem
  obtain ⟨st1, snew, hloop, hmono, halldone, hDT1, htrnd1, hTS1, hΔ, hDO1, hmuts⟩ :=
    execLoop_run registry env bfuel rank henv (p.tasks.length + 1)
      (ExecState.mk p.tasks [] []) 0 []
      hclosed0 hrank hnd hDT0 (by simp) (by intro s hs; simp at hs)
      (by intro k ttl hk; simp at hk)
      (countDone_zero p.tasks hfresh).symm
      (by show p.tasks.length - 0 < p.tasks.length + 1; omega)
  refine ⟨st1, snew, ?_, halldone, ?_, ?_, ?_, hmuts⟩
  · unfold executeModel
    rw [hbuild]
    simpa using hloop
  · exact finalTaskList_all_done p.tasks st1.m hnd hmono.titles halldone
  · apply (List.perm_ext_iff_of_nodup htrnd1 hnd).mpr
    intro a
    constructor
    · intro ha
      have := hTS1 a ha
      rwa [hmono.titles] at this
    · intro ha
      obtain ⟨u, hu, rfl⟩ := List.mem_map.mp ha
      obtain ⟨iu, hiu⟩ := List.mem_iff_getElem?.mp hu
      obtain ⟨u1, hu1, hstep⟩ := hmono.get? iu u hiu
      have hdone1 : u1.done = true := halldone u1 (List.getElem?_mem hu1)
      have hmem1 := (hDT1 iu u1 hu1).mp hdone1
      rwa [hstep.title_eq] at hmem1
  · intro k ttl hk t ht httl d hd
    obtain ⟨it, hit⟩ := List.mem_iff_getElem?.mp ht
    obtain ⟨t1, ht1, hstep⟩ := hmono.get? it t hit
    have hnd1 : (st1.m.map Task.title).Nodup := by rw [hmono.titles]; exact hnd
    have hlook : lookupTask st1.m ttl = some t1 := by
      have := lookup_get_nodup st1.m hnd1 it t1 ht1
      rwa [hstep.title_eq, httl] at this
    exact hDO1 k ttl hk t1 hlook d (hstep.deps_eq ▸ hd)

/-- Counterexample to C2 as stated: this project has a trivially
acyclic dependency graph with no dangling references (there are no
references at all), yet `execute` never terminates, because its single
task is already done when execution starts: the scan skips it forever,
done_count never counts it, and the loop condition never turns false. -/
theorem C2_counterexample :
    schedulerDiverges emptyRegistry trivEnv 0 preDoneProject ∧
    (∀ t ∈ preDoneProject.tasks, t.depends_on = []) ∧
    preDoneProject.tasks.length = 1 := by
  refine ⟨?_, by decide, by decide⟩
  intro fuel
  have h := execLoop_stuck emptyRegistry trivEnv 0
    { m := buildTasks preDoneProject.tasks, thread := [], trace := [] } 0
    (by decide) (by decide) fuel []
  exact ⟨_, _, by simpa [executeModel] using h⟩

/-- Witness for C2 on the chain scenario: task A, then task B
depending on A. -/
theorem C2_witness :
    ∃ (st : ExecState) (snaps : List ExecState),
      executeModel emptyRegistry trivEnv chainProject 0
        (chainProject.tasks.length + 1) = .ok st snaps ∧
      (∀ t ∈ st.m, t.done = true) ∧
      (∀ t ∈ finalTaskList chainProject.tasks st.m, t.done = true) ∧
      (st.trace.map Prod.fst).Perm (chainProject.tasks.map Task.title) ∧
      (∀ (k : Nat) (ttl : String), (st.trace.map Prod.fst)[k]? = some ttl →
        ∀ t ∈ chainProject.tasks, t.title = ttl →
          ∀ d ∈ t.depends_on, d ∈ (st.trace.map Prod.fst).take k) ∧
      (∀ s ∈ snaps, MutualOrdered s st.trace) :=
  C2_acyclic_all_done emptyRegistry trivEnv 0 chainProject
    (fun s => if s = "B" then 1 else 0)
    (by decide) (by decide) (by decide) (by decide)
    (by intro t; rfl)

/-- A task whose dependency list contains an unresolvable title never
passes the readiness scan. -/
theorem checkDeps_not_true_of_missing (m : List Task) :
    ∀ ds d, d ∈ ds → lookupTask m d = none → checkDeps m ds ≠ .ok true := by
  intro ds
  induction ds with
  | nil => intro d hd; simp at hd
  | cons d0 ds1 ih =>
    intro d hd hnone hc
    cases hl : lookupTask m d0 with
    | none => rw [checkDeps_cons_none ds1 hl] at hc; exact Except.noConfusion hc
    | some t0 =>
      by_cases h0 : t0.done = true
      · rw [checkDeps_cons_done ds1 hl h0] at hc
        rcases List.mem_cons.mp hd with rfl | hd1
        · rw [hl] at hnone; exact Option.noConfusion hnone
        · exact ih d hd1 hnone hc
      · rw [checkDeps_cons_notdone ds1 hl (Bool.eq_false_iff.mpr h0)] at hc
        simp at hc

/-- A negative readiness scan pinpoints a present but pending
dependency. -/
theorem checkDeps_false_elim (m : List Task) :
    ∀ ds, checkDeps m ds = .ok false →
      ∃ d ∈ ds, ∃ td, lookupTask m d = some td ∧ td.done = false := by
  intro ds
  induction ds with
  | nil => intro hc; exact absurd hc (by rw [checkDeps]; simp)
  | cons d0 ds1 ih =>
    intro hc
    cases hl : lookupTask m d0 with
    | none => rw [checkDeps_cons_none ds1 hl] at hc; exact Except.noConfusion hc
    | some t0 =>
      by_cases h0 : t0.done = true
      · rw [checkDeps_cons_done ds1 hl h0] at hc
        obtain ⟨d, hd, td, hltd, hdone⟩ := ih hc
        exact ⟨d, by simp [hd], td, hltd, hdone⟩
      · exact ⟨d0, by simp, t0, hl, Bool.eq_false_iff.mpr h0⟩

/-- A readiness KeyError names a missing title. -/
theorem checkDeps_error_elim (m : List Task) :
    ∀ ds d, checkDeps m ds = .error d → lookupTask m d = none := by
  intro ds
  induction ds with
  | nil => intro d hc; exact Except.noConfusion hc
  | cons d0 ds1 ih =>
    intro d hc
    cases hl : lookupTask m d0 with
    | none =>
      rw [checkDeps_cons_none ds1 hl] at hc
      cases hc
      exact hl
    | some t0 =>
      by_cases h0 : t0.done = true
      · rw [checkDeps_cons_done ds1 hl h0] at hc
        exact ih d hc
      · rw [checkDeps_cons_notdone ds1 hl (Bool.eq_false_iff.mpr h0)] at hc
        exact Except.noConfusion hc

/-- A pending task and one of its missing dependency titles survive a
round untouched: the task is never executed (its readiness scan cannot
succeed) and the title never becomes resolvable. -/
theorem passGo_missing_preserved (registry : Registry) (env : Task → RunBehavior)
    (bfuel : Nat) :
    ∀ (is : List Nat) (st : ExecState) (newly : Nat) (i : Nat) (t : Task) (d : String),
      st.m[i]? = some t → d ∈ t.depends_on → lookupTask st.m d = none →
      t.done = false →
      (passGo registry env bfuel is st newly).state.m[i]? = some t ∧
      lookupTask (passGo registry env bfuel is st newly).state.m d = none := by
  intro is
  induction is with
  | nil =>
    intro st newly i t d hit hd hnone hpend
    rw [passGo]
    exact ⟨hit, hnone⟩
  | cons j is1 ih =>
    intro st newly i t d hit hd hnone hpend
    by_cases hji : j = i
    · subst hji
      cases hc : checkDeps st.m t.depends_on with
      | error d0 =>
        rw [passGo_cons_keyerr is1 newly hit hpend hc]
        exact ⟨hit, hnone⟩
      | ok ready =>
        cases ready with
        | false =>
          rw [passGo_cons_notready is1 newly hit hpend hc]
          exact ih st newly j t d hit hd hnone hpend
        | true =>
          exact absurd hc (checkDeps_not_true_of_missing st.m t.depends_on d hd hnone)
    · cases h2 : st.m[j]? with
      | none =>
        rw [passGo_cons_oob is1 newly h2]
        exact ih st newly i t d hit hd hnone hpend
      | some u =>
        by_cases hu : u.done = true
        · rw [passGo_cons_done is1 newly h2 hu]
          exact ih st newly i t d hit hd hnone hpend
        · have hu0 : u.done = false := Bool.eq_false_iff.mpr hu
          cases hc2 : checkDeps st.m u.depends_on with
          | error d0 =>
            rw [passGo_cons_keyerr is1 newly h2 hu0 hc2]
            exact ⟨hit, hnone⟩
          | ok ready =>
            cases ready with
            | false =>
              rw [passGo_cons_notready is1 newly h2 hu0 hc2]
              exact ih st newly i t d hit hd hnone hpend
            | true =>
              cases he : execTask registry env u st.thread bfuel with
              | fail e th =>
                rw [passGo_cons_taskfail is1 newly h2 hu0 hc2 he]
                exact ⟨hit, hnone⟩
              | noFuel th =>
                rw [passGo_cons_tasknofuel is1 newly h2 hu0 hc2 he]
                exact ⟨hit, hnone⟩
              | ok th surfaced =>
                rw [passGo_cons_exec is1 newly h2 hu0 hc2 he]
                have hmono := TasksMono.set st.m j u h2
                exact ih _ (newly + 1) i t d
                  (by
                    show (st.m.set j { u with done := true })[i]? = some t
                    rw [List.getElem?_set_ne hji]
                    exact hit)
                  hd (lookupTask_none_mono hmono d hnone) hpend

/-- A round that returns normally never visited a pending task whose
readiness scan raises. -/
theorem passGo_no_ok_of_keyerr (registry : Registry) (env : Task → RunBehavior)
    (bfuel : Nat) :
    ∀ (is : List Nat) (st : ExecState) (newly : Nat) (st1 : ExecState) (newly1 : Nat)
      (i : Nat) (t : Task) (d : String),
      passGo registry env bfuel is st newly = .ok st1 newly1 →
      i ∈ is → st.m[i]? = some t → t.done = false →
      checkDeps st.m t.depends_on = .error d → False := by
  intro is
  induction is with
  | nil => intro st newly st1 newly1 i t d _ hmem; simp at hmem
  | cons j is1 ih =>
    intro st newly st1 newly1 i t d hp hmem hit hpend hcerr
    by_cases hji : j = i
    · subst hji
      rw [passGo_cons_keyerr is1 newly hit hpend hcerr] at hp
      exact PassResult.noConfusion hp
    · have hmem1 : i ∈ is1 := by
        rcases List.mem_cons.mp hmem with rfl | h1
        · exact absurd rfl hji
        · exact h1
      cases h2 : st.m[j]? with
      | none =>
        rw [passGo_cons_oob is1 newly h2] at hp
        exact ih st newly st1 newly1 i t d hp hmem1 hit hpend hcerr
      | some u =>
        by_cases hu : u.done = true
        · rw [passGo_cons_done is1 newly h2 hu] at hp
          exact ih st newly st1 newly1 i t d hp hmem1 hit hpend hcerr
        · have hu0 : u.done = false := Bool.eq_false_iff.mpr hu
          cases hc2 : checkDeps st.m u.depends_on with
          | error d0 =>
            rw [passGo_cons_keyerr is1 newly h2 hu0 hc2] at hp
            exact PassResult.noConfusion hp
          | ok ready =>
            cases ready with
            | false =>
              rw [passGo_cons_notready is1 newly h2 hu0 hc2] at hp
              exact ih st newly st1 newly1 i t d hp hmem1 hit hpend hcerr
            | true =>
              cases he : execTask registry env u st.thread bfuel with
              | fail e th =>
                rw [passGo_cons_taskfail is1 newly h2 hu0 hc2 he] at hp
                exact PassResult.noConfusion hp
              | noFuel th =>
                rw [passGo_cons_tasknofuel is1 newly h2 hu0 hc2 he] at hp
                exact PassResult.noConfusion hp
              | ok th surfaced =>
                rw [passGo_cons_exec is1 newly h2 hu0 hc2 he] at hp
                have hmono := TasksMono.set st.m j u h2
                exact ih _ (newly + 1) st1 newly1 i t d hp hmem1
                  (by
                    show (st.m.set j { u with done := true })[i]? = some t
                    rw [List.getElem?_set_ne hji]
                    exact hit)
                  hpend (checkDeps_error_mono hmono t.depends_on d hcerr)

/-- Under a well-behaved environment the only exception a round can
raise is a KeyError naming a title missing from the dict. -/
theorem passGo_fail_keyerr (registry : Registry) (env : Task → RunBehavior)
    (bfuel : Nat) (henv : EnvOk registry env bfuel) :
    ∀ (is : List Nat) (st : ExecState) (newly : Nat) (e : ExecErr) (st1 : ExecState)
      (ttl : String),
      passGo registry env bfuel is st newly = .fail e st1 ttl →
      ∃ d, e = .keyError d ∧ lookupTask st1.m d = none := by
  intro is
  induction is with
  | nil =>
    intro st newly e st1 ttl hp
    rw [passGo] at hp
    exact PassResult.noConfusion hp
  | cons j is1 ih =>
    intro st newly e st1 ttl hp
    cases h2 : st.m[j]? with
    | none =>
      rw [passGo_cons_oob is1 newly h2] at hp
      exact ih st newly e st1 ttl hp
    | some u =>
      by_cases hu : u.done = true
      · rw [passGo_cons_done is1 newly h2 hu] at hp
        exact ih st newly e st1 ttl hp
      · have hu0 : u.done = false := Bool.eq_false_iff.mpr hu
        cases hc2 : checkDeps st.m u.depends_on with
        | error d0 =>
          rw [passGo_cons_keyerr is1 newly h2 hu0 hc2] at hp
          cases hp
          exact ⟨d0, rfl, checkDeps_error_elim st.m u.depends_on d0 hc2⟩
        | ok ready =>
          cases ready with
          | false =>
            rw [passGo_cons_notready is1 newly h2 hu0 hc2] at hp
            exact ih st newly e st1 ttl hp
          | true =>
            cases he : execTask registry env u st.thread bfuel with
            | fail e0 th =>
              obtain ⟨th1, s1, hok⟩ := execTask_ok_of_envOk henv u st.thread
              rw [hok] at he
              exact TaskOutcome.noConfusion he
            | noFuel th =>
              obtain ⟨th1, s1, hok⟩ := execTask_ok_of_envOk henv u st.thread
              rw [hok] at he
              exact TaskOutcome.noConfusion he
            | ok th surfaced =>
              rw [passGo_cons_exec is1 newly h2 hu0 hc2 he] at hp
              exact ih _ (newly + 1) e st1 ttl hp

/-- Under a well-behaved environment a round never runs out of bridge
fuel. -/
theorem passGo_no_noFuel (registry : Registry) (env : Task → RunBehavior)
    (bfuel : Nat) (henv : EnvOk registry env bfuel) :
    ∀ (is : List Nat) (st : ExecState) (newly : Nat) (st1 : ExecState),
      passGo registry env bfuel is st newly = .noFuel st1 → False := by
  intro is
  induction is with
  | nil =>
    intro st newly st1 hp
    rw [passGo] at hp
    exact PassResult.noConfusion hp
  | cons j is1 ih =>
    intro st newly st1 hp
    cases h2 : st.m[j]? with
    | none =>
      rw [passGo_cons_oob is1 newly h2] at hp
      exact ih st newly st1 hp
    | some u =>
      by_cases hu : u.done = true
      · rw [passGo_cons_done is1 newly h2 hu] at hp
        exact ih st newly st1 hp
      · have hu0 : u.done = false := Bool.eq_false_iff.mpr hu
        cases hc2 : checkDeps st.m u.depends_on with
        | error d0 =>
          rw [passGo_cons_keyerr is1 newly h2 hu0 hc2] at hp
          exact PassResult.noConfusion hp
        | ok ready =>
          cases ready with
          | false =>
            rw [passGo_cons_notready is1 newly h2 hu0 hc2] at hp
            exact ih st newly st1 hp
          | true =>
            cases he : execTask registry env u st.thread bfuel with
            | fail e0 th =>
              obtain ⟨th1, s1, hok⟩ := execTask_ok_of_envOk henv u st.thread
              rw [hok] at he
              exact TaskOutcome.noConfusion he
            | noFuel th =>
              obtain ⟨th1, s1, hok⟩ := execTask_ok_of_envOk henv u st.thread
              rw [hok] at he
              exact TaskOutcome.noConfusion he
            | ok th surfaced =>
              rw [passGo_cons_exec is1 newly h2 hu0 hc2 he] at hp
              exact ih _ (newly + 1) st1 hp

/-- A round that returns normally after visiting a ready pending task
counts at least one newly done task. -/
theorem passGo_ok_progress (registry : Registry) (env : Task → RunBehavior)
    (bfuel : Nat) :
    ∀ (is : List Nat) (st : ExecState) (newly : Nat) (st1 : ExecState) (newly1 : Nat)
      (i : Nat) (t : Task),
      passGo registry env bfuel is st newly = .ok st1 newly1 →
      i ∈ is → st.m[i]? = some t → t.done = false →
      checkDeps st.m t.depends_on = .ok true →
      newly + 1 ≤ newly1 := by
  intro is
  induction is with
  | nil => intro st newly st1 newly1 i t _ hmem; simp at hmem
  | cons j is1 ih =>
    intro st newly st1 newly1 i t hp hmem hit hpend hc
    by_cases hji : j = i
    · subst hji
      cases he : execTask registry env t st.thread bfuel with
      | fail e th =>
        rw [passGo_cons_taskfail is1 newly hit hpend hc he] at hp
        exact PassResult.noConfusion hp
      | noFuel th =>
        rw [passGo_cons_tasknofuel is1 newly hit hpend hc he] at hp
        exact PassResult.noConfusion hp
      | ok th surfaced =>
        rw [passGo_cons_exec is1 newly hit hpend hc he] at hp
        exact (passGo_ok_count registry env bfuel is1 _ _ _ _ hp).1
    · have hmem1 : i ∈ is1 := by
        rcases List.mem_cons.mp hmem with rfl | h1
        · exact absurd rfl hji
        · exact h1
      cases h2 : st.m[j]? with
      | none =>
        rw [passGo_cons_oob is1 newly h2] at hp
        exact ih st newly st1 newly1 i t hp hmem1 hit hpend hc
      | some u =>
        by_cases hu : u.done = true
        · rw [passGo_cons_done is1 newly h2 hu] at hp
          exact ih st newly st1 newly1 i t hp hmem1 hit hpend hc
        · have hu0 : u.done = false := Bool.eq_false_iff.mpr hu
          cases hc2 : checkDeps st.m u.depends_on with
          | error d0 =>
            rw [passGo_cons_keyerr is1 newly h2 hu0 hc2] at hp
            exact PassResult.noConfusion hp
          | ok ready =>
            cases ready with
            | false =>
              rw [passGo_cons_notready is1 newly h2 hu0 hc2] at hp
              exact ih st newly st1 newly1 i t hp hmem1 hit hpend hc
            | true =>
              cases he : execTask registry env u st.thread bfuel with
              | fail e th =>
                rw [passGo_cons_taskfail is1 newly h2 hu0 hc2 he] at hp
                exact PassResult.noConfusion hp
              | noFuel th =>
                rw [passGo_cons_tasknofuel is1 newly h2 hu0 hc2 he] at hp
                exact PassResult.noConfusion hp
              | ok th surfaced =>
                rw [passGo_cons_exec is1 newly h2 hu0 hc2 he] at hp
                have hmono := TasksMono.set st.m j u h2
                have := ih _ (newly + 1) st1 newly1 i t hp hmem1
                  (by
                    show (st.m.set j { u with done := true })[i]? = some t
                    rw [List.getElem?_set_ne hji]
                    exact hit)
                  hpend (checkDeps_true_mono hmono t.depends_on hc)
                omega

/-- A dict holding a pending task has a done count below its size. -/
theorem countDone_lt_length (m : List Task) (i : Nat) (t : Task)
    (h : m[i]? = some t) (hd : t.done = false) : countDone m < m.length := by
  have hle := countDone_le_length m
  rcases Nat.lt_or_ge (countDone m) m.length with hlt | hge
  · exact hlt
  · exfalso
    have hfull : countDone m = m.length := by omega
    have := all_done_of_countDone m hfull t (List.getElem?_mem h)
    rw [hd] at this
    exact Bool.noConfusion this

/-- An all-pending ranked execution that keeps a pending task with a
missing dependency title must raise KeyError before fuel above the
task count runs out: every normal round makes progress, full completion
is impossible, so some round raises. -/
theorem execLoop_missing_fails (registry : Registry) (env : Task → RunBehavior)
    (bfuel : Nat) (rank : String → Nat) (henv : EnvOk registry env bfuel) :
    ∀ (fuel : Nat) (st : ExecState) (dc : Nat) (snaps : List ExecState)
      (i : Nat) (t : Task) (d : String),
      RankOk rank st.m → dc = countDone st.m → st.m.length - dc < fuel →
      st.m[i]? = some t → d ∈ t.depends_on → lookupTask st.m d = none →
      t.done = false →
      ∃ (d1 : String) (st1 : ExecState) (ttl : String) (snaps1 : List ExecState),
        execLoop registry env bfuel fuel st dc snaps =
          .fail (.keyError d1) st1 ttl snaps1 ∧
        lookupTask st1.m d1 = none ∧
        st1.m[i]? = some t ∧ lookupTask st1.m d = none := by
  intro fuel
  induction fuel with
  | zero =>
    intro st dc snaps i t d _ hdc hlt hit hd hnone hpend
    have := countDone_lt_length st.m i t hit hpend
    omega
  | succ n ih =>
    intro st dc snaps i t d hrank hdc hlt hit hd hnone hpend
    have hcondlt : dc < st.m.length := by
      have := countDone_lt_length st.m i t hit hpend
      omega
    rw [execLoop, if_pos hcondlt]
    cases hp : passGo registry env bfuel (List.range st.m.length) st 0 with
    | fail e stf ttl =>
      obtain ⟨d1, rfl, hld1⟩ :=
        passGo_fail_keyerr registry env bfuel henv _ _ _ _ _ _ hp
      have hpres := passGo_missing_preserved registry env bfuel
        (List.range st.m.length) st 0 i t d hit hd hnone hpend
      rw [hp] at hpres
      exact ⟨d1, stf, ttl, snaps ++ [st], rfl, hld1, hpres.1, hpres.2⟩
    | noFuel stf =>
      exact (passGo_no_noFuel registry env bfuel henv _ _ _ _ hp).elim
    | ok stp newp =>
      have hmono : TasksMono st.m stp.m := by
        have hs := (passGo_state_spec registry env bfuel (List.range st.m.length) st 0).1
        rw [hp] at hs
        exact hs
      have hpres := passGo_missing_preserved registry env bfuel
        (List.range st.m.length) st 0 i t d hit hd hnone hpend
      rw [hp] at hpres
      have hpendlist : st.m.filter (fun u => !u.done) ≠ [] := by
        intro hnil
        have hmemf : t ∈ st.m.filter (fun u => !u.done) :=
          List.mem_filter.mpr ⟨List.getElem?_mem hit, by simp [hpend]⟩
        rw [hnil] at hmemf
        simp at hmemf
      obtain ⟨a, hamem, hmin⟩ := exists_min_measure (fun u => rank u.title) _ hpendlist
      have hamem1 : a ∈ st.m := (List.mem_filter.mp hamem).1
      have hadone : a.done = false := by
        have := (List.mem_filter.mp hamem).2
        simpa using this
      obtain ⟨ia, hia⟩ := List.mem_iff_getElem?.mp hamem1
      have hialen : ia < st.m.length := (List.getElem?_eq_some_iff.mp hia).1
      have hnewp : 1 ≤ newp := by
        cases hca : checkDeps st.m a.depends_on with
        | error d0 =>
          exact (passGo_no_ok_of_keyerr registry env bfuel (List.range st.m.length)
            st 0 stp newp ia a d0 hp (List.mem_range.mpr hialen) hia hadone hca).elim
        | ok ready =>
          cases ready with
          | false =>
            exfalso
            obtain ⟨d0, hd0, td, hltd, htdp⟩ := checkDeps_false_elim st.m a.depends_on hca
            have htdm : td ∈ st.m := List.mem_of_find?_eq_some hltd
            have htdt : td.title = d0 := by
              have := List.find?_some hltd
              simpa using this
            have htdf : td ∈ st.m.filter (fun u => !u.done) :=
              List.mem_filter.mpr ⟨htdm, by simp [htdp]⟩
            have hge := hmin td htdf
            have hlt2 := hrank a hamem1 d0 hd0
            rw [htdt] at hge
            omega
          | true =>
            have := passGo_ok_progress registry env bfuel _ _ _ _ _ ia a hp
              (List.mem_range.mpr hialen) hia hadone hca
            omega
      obtain ⟨-, hcount⟩ := passGo_ok_count registry env bfuel _ _ _ _ _ hp
      have hlen := hmono.len
      exact ih stp (dc + newp) (snaps ++ [st]) i t d
        (RankOk_mono hmono hrank) (by omega) (by omega) hpres.1 hd hpres.2 hpend

/-- C7 (amended): on a project with pairwise distinct titles, all
tasks initially pending, an acyclic (ranked) dependency graph and a
well-behaved remote environment, if some task depends on a title no
task carries, then `execute` raises KeyError — the undefined
dependency configuration error — naming a title missing from the task
map, and the referencing task object is still in the map unchanged,
its done flag false. -/
theorem C7_dangling_dep_fails (registry : Registry) (env : Task → RunBehavior)
    (bfuel : Nat) (p : Project) (rank : String → Nat) (t : Task) (d : String)
    (hnd : (p.tasks.map Task.title).Nodup)
    (hfresh : ∀ u ∈ p.tasks, u.done = false)
    (hrank : ∀ u ∈ p.tasks, ∀ d0 ∈ u.depends_on, rank d0 < rank u.title)
    (henv : EnvOk registry env bfuel)
    (ht : t ∈ p.tasks) (hd : d ∈ t.depends_on)
    (hmiss : ∀ u ∈ p.tasks, u.title ≠ d) :
    ∃ (d1 : String) (st : ExecState) (ttl : String) (snaps : List ExecState),
      executeModel registry env p bfuel (p.tasks.length + 1) =
        .fail (.keyError d1) st ttl snaps ∧
      lookupTask st.m d1 = none ∧
      (∃ i : Nat, st.m[i]? = some t) ∧ t.done = false := by
  have hbuild : buildTasks p.tasks = p.tasks := buildTasks_eq_self p.tasks hnd
  have hnone : lookupTask p.tasks d = none := by
    rw [lookupTask_eq_none_iff]
    intro s hs
    obtain ⟨u, hu, rfl⟩ := List.mem_map.mp hs
    exact hmiss u hu
  obtain ⟨i, hi⟩ := List.mem_iff_getElem?.mp ht
  obtain ⟨d1, st1, ttl, snaps1, hres, h1, h2, h3⟩ :=
    execLoop_missing_fails registry env bfuel rank henv (p.tasks.length + 1)
      (ExecState.mk p.tasks [] []) 0 [] i t d
      hrank (countDone_zero p.tasks hfresh).symm
      (by show p.tasks.length - 0 < p.tasks.length + 1; omega)
      hi hd hnone (hfresh t ht)
  refine ⟨d1, st1, ttl, snaps1, ?_, h1, ⟨i, h2⟩, hfresh t ht⟩
  unfold executeModel
  rw [hbuild]
  exact hres

/-- Counterexample to C7 as stated: this project has a task whose
depends_on names the missing title X, yet `execute` never raises any
error: the task is already done when execution starts, the scan skips
it forever and the loop never terminates. -/
theorem C7_counterexample :
    schedulerDiverges emptyRegistry trivEnv 0 danglingDoneProject ∧
    (∃ t ∈ danglingDoneProject.tasks, ∃ d ∈ t.depends_on,
      lookupTask (buildTasks danglingDoneProject.tasks) d = none) := by
  constructor
  · intro fuel
    have h := execLoop_stuck emptyRegistry trivEnv 0
      { m := buildTasks danglingDoneProject.tasks, thread := [], trace := [] } 0
      (by decide) (by decide) fuel []
    exact ⟨_, _, by simpa [executeModel] using h⟩
  · decide

/-- Witness for C7 on the dangling scenario: task A with no
dependencies, task B depending on the missing title X. -/
theorem C7_witness :
    ∃ (d1 : String) (st : ExecState) (ttl : String) (snaps : List ExecState),
      executeModel emptyRegistry trivEnv danglingProject 0
        (danglingProject.tasks.length + 1) = .fail (.keyError d1) st ttl snaps ∧
      lookupTask st.m d1 = none ∧
      (∃ i : Nat, st.m[i]? = some (mkTask "B" ["X"] false)) ∧
      (mkTask "B" ["X"] false).done = false :=
  C7_dangling_dep_fails emptyRegistry trivEnv 0 danglingProject
    (fun s => if s = "B" then 1 else 0) (mkTask "B" ["X"] false) "X"
    (by decide) (by decide) (by decide) (by intro t; rfl)
    (by decide) (by decide) (by decide)

/-- When a round aborts, the task in flight (whose title the exception
carries) is still pending in the returned state. -/
theorem passGo_fail_inflight (registry : Registry) (env : Task → RunBehavior)
    (bfuel : Nat) :
    ∀ (is : List Nat) (st : ExecState) (newly : Nat) (e : ExecErr) (st1 : ExecState)
      (ttl : String),
      (st.m.map Task.title).Nodup →
      passGo registry env bfuel is st newly = .fail e st1 ttl →
      ∃ t, lookupTask st1.m ttl = some t ∧ t.done = false := by
  intro is
  induction is with
  | nil =>
    intro st newly e st1 ttl _ hp
    rw [passGo] at hp
    exact PassResult.noConfusion hp
  | cons j is1 ih =>
    intro st newly e st1 ttl hnd hp
    cases h2 : st.m[j]? with
    | none =>
      rw [passGo_cons_oob is1 newly h2] at hp
      exact ih st newly e st1 ttl hnd hp
    | some u =>
      by_cases hu : u.done = true
      · rw [passGo_cons_done is1 newly h2 hu] at hp
        exact ih st newly e st1 ttl hnd hp
      · have hu0 : u.done = false := Bool.eq_false_iff.mpr hu
        cases hc2 : checkDeps st.m u.depends_on with
        | error d0 =>
          rw [passGo_cons_keyerr is1 newly h2 hu0 hc2] at hp
          cases hp
          exact ⟨u, lookup_get_nodup st.m hnd j u h2, hu0⟩
        | ok ready =>
          cases ready with
          | false =>
            rw [passGo_cons_notready is1 newly h2 hu0 hc2] at hp
            exact ih st newly e st1 ttl hnd hp
          | true =>
            cases he : execTask registry env u st.thread bfuel with
            | fail e0 th =>
              rw [passGo_cons_taskfail is1 newly h2 hu0 hc2 he] at hp
              cases hp
              exact ⟨u, lookup_get_nodup st.m hnd j u h2, hu0⟩
            | noFuel th =>
              rw [passGo_cons_tasknofuel is1 newly h2 hu0 hc2 he] at hp
              exact PassResult.noConfusion hp
            | ok th surfaced =>
              rw [passGo_cons_exec is1 newly h2 hu0 hc2 he] at hp
              have hmono := TasksMono.set st.m j u h2
              exact ih _ (newly + 1) e st1 ttl (by rw [hmono.titles]; exact hnd) hp

/-- The same across the whole loop: an aborting execution leaves the
in-flight task pending. -/
theorem execLoop_fail_inflight (registry : Registry) (env : Task → RunBehavior)
    (bfuel : Nat) :
    ∀ (fuel : Nat) (st : ExecState) (dc : Nat) (snaps : List ExecState) (e : ExecErr)
      (st1 : ExecState) (ttl : String) (snaps1 : List ExecState),
      (st.m.map Task.title).Nodup →
      execLoop registry env bfuel fuel st dc snaps = .fail e st1 ttl snaps1 →
      ∃ t, lookupTask st1.m ttl = some t ∧ t.done = false := by
  intro fuel
  induction fuel with
  | zero =>
    intro st dc snaps e st1 ttl snaps1 _ h
    rw [execLoop] at h
    exact ExecResult.noConfusion h
  | succ n ih =>
    intro st dc snaps e st1 ttl snaps1 hnd h
    rw [execLoop] at h
    by_cases hcond : dc < st.m.length
    · rw [if_pos hcond] at h
      cases hp : passGo registry env bfuel (List.range st.m.length) st 0 with
      | fail e0 stf ttlf =>
        simp only [hp] at h
        cases h
        exact passGo_fail_inflight registry env bfuel _ _ _ _ _ _ hnd hp
      | noFuel stf =>
        simp only [hp] at h
        exact ExecResult.noConfusion h
      | ok stp newp =>
        simp only [hp] at h
        have hmono : TasksMono st.m stp.m := by
          have hs := (passGo_state_spec registry env bfuel (List.range st.m.length) st 0).1
          rw [hp] at hs
          exact hs
        exact ih stp (dc + newp) (snaps ++ [st]) e st1 ttl snaps1
          (by rw [hmono.titles]; exact hnd) h
    · rw [if_neg hcond] at h
      exact ExecResult.noConfusion h

/-- C5: a tool function raising while the bridge services a
requires-tool-input batch is not retried — every tool before it runs
exactly once, the raising tool runs exactly once, no output batch is
submitted, and the error propagates as a fatal bridge failure; at the
scheduler level any aborting execution leaves the in-flight task (the
one the exception escaped from) with its done flag still false. -/
theorem C5_tool_error_fatal :
    (∀ (registry : Registry) (submit : Run → List ToolOutput → Run) (fuel : Nat)
       (run : Run) (pre post : List ToolCall) (c : ToolCall) (f : ToolFn) (msg : String),
       run.status = "requires_action" →
       run.tool_calls = pre ++ c :: post →
       (∀ c1 ∈ pre, ∃ g out, registry c1.fname = some g ∧ g c1.arguments = .ok out) →
       registry c.fname = some f → f c.arguments = .error msg →
       driveRun registry submit (fuel + 1) run [] [] =
         .fail (.toolError c.fname msg) []
           (pre.map (fun c1 => (c1.fname, c1.arguments)) ++ [(c.fname, c.arguments)])) ∧
    (∀ (registry : Registry) (env : Task → RunBehavior) (p : Project)
       (bfuel fuel : Nat) (e : ExecErr) (st : ExecState) (ttl : String)
       (snaps : List ExecState),
       executeModel registry env p bfuel fuel = .fail e st ttl snaps →
       ∃ t, lookupTask st.m ttl = some t ∧ t.done = false) := by
  constructor
  · intro registry submit fuel run pre post c f msg hst hcalls hpre hf hmsg
    rw [driveRun, if_pos hst, hcalls,
      serviceBatch_toolError registry pre c post f msg hpre hf hmsg]
    simp
  · intro registry env p bfuel fuel e st ttl snaps h
    unfold executeModel at h
    exact execLoop_fail_inflight registry env bfuel fuel _ 0 [] e st ttl snaps
      (buildTasks_titles_nodup p.tasks) h

/-- Witness for C5: the failing scrape tool aborts the bridge with no
submission and one invocation, and the scheduler-level run on the
one-task project leaves task A pending. -/
theorem C5_tool_error_fatal_witness :
    driveRun failRegistry (fun r _ => r) 1 oneCallRun [] [] =
      .fail (.toolError "page_scrape" "boom") [] [("page_scrape", "args1")] ∧
    ∃ t, lookupTask
        (ExecState.mk [mkTask "A" [] false] [Message.mk "user" "do A"] []).m "A" =
        some t ∧ t.done = false := by
  constructor
  · have h := C5_tool_error_fatal.1 failRegistry (fun r _ => r) 0 oneCallRun [] []
      { id := "call1", fname := "page_scrape", arguments := "args1" }
      (fun _ => .error "boom") "boom" rfl rfl (by intro c1 hc1; simp at hc1) rfl rfl
    simpa using h
  · exact C5_tool_error_fatal.2 failRegistry failEnv toolProject 1 2
      (.toolError "page_scrape" "boom")
      (ExecState.mk [mkTask "A" [] false] [Message.mk "user" "do A"] []) "A"
      [ExecState.mk [mkTask "A" [] false] [] []] (by decide)

/-- C9: when a task execution returns normally, a response is surfaced
to the operator exactly when the newest message of the thread is
assistant authored, and then it is that message's content; a newest
message with any other role — such as the user echo of the task
instructions when the run posted nothing — surfaces nothing and is
never passed off as an agent reply. -/
theorem C9_latest_response (registry : Registry) (env : Task → RunBehavior)
    (t : Task) (thread : List Message) (bfuel : Nat) (th1 : List Message)
    (surfaced : Option String)
    (h : execTask registry env t thread bfuel = .ok th1 surfaced) :
    ∀ s, surfaced = some s ↔
      ∃ mr, th1.getLast? = some mr ∧ mr.role = "assistant" ∧ mr.content = s := by
  intro s
  cases hdr : driveRun registry (env t).submit bfuel (env t).run0 [] [] with
  | fail e sb iv =>
    rw [execTask] at h
    simp only [hdr] at h
    exact TaskOutcome.noConfusion h
  | noFuel sb iv =>
    rw [execTask] at h
    simp only [hdr] at h
    exact TaskOutcome.noConfusion h
  | done run sb iv =>
    rw [execTask] at h
    simp only [hdr] at h
    cases hrev : ((thread ++ [({ role := "user", content := t.instructions } : Message)])
        ++ (env t).newMessages).reverse with
    | nil =>
      simp only [hrev] at h
      exact TaskOutcome.noConfusion h
    | cons mr rest =>
      simp only [hrev] at h
      cases h
      have hlast : ((thread ++ [({ role := "user", content := t.instructions } : Message)])
          ++ (env t).newMessages).getLast? = some mr := by
        rw [List.getLast?_eq_head?_reverse, hrev]
        rfl
      by_cases hrole : mr.role = "assistant"
      · rw [if_pos hrole]
        constructor
        · intro hs
          cases hs
          exact ⟨mr, hlast, hrole, rfl⟩
        · intro ⟨mr1, hmr1, _, hcont⟩
          rw [hlast] at hmr1
          cases hmr1
          rw [hcont]
      · rw [if_neg hrole]
        constructor
        · intro hs
          exact Option.noConfusion hs
        · intro ⟨mr1, hmr1, hrole1, _⟩
          rw [hlast] at hmr1
          cases hmr1
          exact absurd hrole1 hrole

/-- Witness for C9: a run that posts one assistant reply surfaces it;
the surfacing rule is exactly the newest-message role check. -/
theorem C9_latest_response_witness :
    execTask emptyRegistry replyEnv (mkTask "A" [] false) [] 0 =
      .ok [Message.mk "user" "do A", Message.mk "assistant" "hi"] (some "hi") ∧
    ∀ s, (some "hi" : Option String) = some s ↔
      ∃ mr, ([Message.mk "user" "do A", Message.mk "assistant" "hi"].getLast? = some mr)
        ∧ mr.role = "assistant" ∧ mr.content = s :=
  ⟨rfl, C9_latest_response emptyRegistry replyEnv (mkTask "A" [] false) [] 0
    [Message.mk "user" "do A", Message.mk "assistant" "hi"] (some "hi") rfl⟩

/-- Updating by the id of an identity is a no-op when every identity
carrying that id already equals the replacement. -/
theorem map_update_self (l : List RemoteAssistant) (ra1 : RemoteAssistant)
    (h : ∀ x ∈ l, x.id = ra1.id → x = ra1) :
    l.map (fun x => if x.id == ra1.id then ra1 else x) = l := by
  induction l with
  | nil => rfl
  | cons x xs ih =>
    rw [List.map_cons]
    congr 1
    · by_cases hid : (x.id == ra1.id) = true
      · rw [if_pos hid]
        exact (h x (by simp) (by simpa using hid)).symm
      · rw [if_neg hid]
    · exact ih (fun y hy => h y (by simp [hy]))

/-- In-place update: with exactly one identity under the name and
duplicate-free ids, updating by its id keeps the listing size, keeps
exactly one identity under the name, makes the replacement the one the
next lookup finds, and leaves it the only identity under that id. -/
theorem upsert_one (n : String) (ra1 : RemoteAssistant) (hra1 : ra1.name = n) :
    ∀ (l : List RemoteAssistant) (ra : RemoteAssistant),
      l.find? (fun x => x.name == n) = some ra →
      (l.map RemoteAssistant.id).Nodup →
      (l.filter (fun x => x.name == n)).length = 1 →
      (l.map (fun x => if x.id == ra.id then ra1 else x)).length = l.length ∧
      ((l.map (fun x => if x.id == ra.id then ra1 else x)).filter
        (fun x => x.name == n)).length = 1 ∧
      (l.map (fun x => if x.id == ra.id then ra1 else x)).find?
        (fun x => x.name == n) = some ra1 ∧
      (∀ z ∈ l.map (fun x => if x.id == ra.id then ra1 else x),
        z.id = ra.id → z = ra1) := by
  intro l
  induction l with
  | nil =>
    intro ra hf
    rw [List.find?] at hf
    exact absurd hf (by simp)
  | cons x xs ih =>
    intro ra hf hnd hcount
    rw [List.map_cons, List.nodup_cons] at hnd
    by_cases hx : (x.name == n) = true
    · rw [List.find?_cons_of_pos (p := fun y : RemoteAssistant => y.name == n) xs hx] at hf
      cases hf
      rw [List.filter_cons_of_pos (p := fun y : RemoteAssistant => y.name == n) hx]
        at hcount
      simp only [List.length_cons] at hcount
      have hcount0 : (xs.filter (fun y => y.name == n)).length = 0 := by omega
      have hxsid : xs.map (fun y => if y.id == x.id then ra1 else y) = xs := by
        have hcongr : ∀ y ∈ xs, (if y.id == x.id then ra1 else y) = y := by
          intro y hy
          rw [if_neg]
          intro hEq
          exact hnd.1 ((eq_of_beq hEq) ▸ List.mem_map_of_mem RemoteAssistant.id hy)
        calc xs.map (fun y => if y.id == x.id then ra1 else y)
            = xs.map (fun y => y) := List.map_congr_left hcongr
          _ = xs := List.map_id' xs
      rw [List.map_cons, if_pos (by simp), hxsid]
      refine ⟨by simp, ?_, ?_, ?_⟩
      · rw [List.filter_cons_of_pos (p := fun y : RemoteAssistant => y.name == n)
          (by simp [hra1])]
        simp only [List.length_cons]
        omega
      · rw [List.find?_cons_of_pos (p := fun y : RemoteAssistant => y.name == n) xs
          (by simp [hra1])]
      · intro z hz hzid
        rcases List.mem_cons.mp hz with rfl | hzmem
        · rfl
        · exact absurd (hzid ▸ List.mem_map_of_mem RemoteAssistant.id hzmem) hnd.1
    · rw [List.find?_cons_of_neg (p := fun y : RemoteAssistant => y.name == n) xs hx] at hf
      have hmem : ra ∈ xs := List.mem_of_find?_eq_some hf
      have hxid : (x.id == ra.id) = false := by
        simp only [beq_eq_false_iff_ne, ne_eq]
        intro hEq
        exact hnd.1 (hEq ▸ List.mem_map_of_mem RemoteAssistant.id hmem)
      rw [List.filter_cons_of_neg (p := fun y : RemoteAssistant => y.name == n)
        (by simp [hx])] at hcount
      obtain ⟨hlen, hcnt, hfind, hall⟩ := ih ra hf hnd.2 hcount
      rw [List.map_cons, if_neg (by simp [hxid])]
      refine ⟨by simp [hlen], ?_, ?_, ?_⟩
      · rw [List.filter_cons_of_neg (p := fun y : RemoteAssistant => y.name == n)
          (by simp [hx])]
        exact hcnt
      · rw [List.find?_cons_of_neg (p := fun y : RemoteAssistant => y.name == n)
          (xs.map (fun y => if y.id == ra.id then ra1 else y)) hx]
        exact hfind
      · intro z hz hzid
        rcases List.mem_cons.mp hz with rfl | hzmem
        · exact absurd (by simpa using hzid) (by simpa using hxid)
        · exact hall z hzmem hzid

/-- An empty name count means the lookup fails. -/
theorem find?_none_of_countName_zero (l : List RemoteAssistant) (n : String)
    (h : (l.filter (fun x => x.name == n)).length = 0) :
    l.find? (fun x => x.name == n) = none := by
  rw [List.find?_eq_none]
  intro x hx hpx
  have hmem : x ∈ l.filter (fun y => y.name == n) := List.mem_filter.mpr ⟨hx, hpx⟩
  rw [List.length_eq_zero.mp h] at hmem
  simp at hmem

/-- A name count of one means the lookup succeeds. -/
theorem find?_of_countName_one (l : List RemoteAssistant) (n : String)
    (h : (l.filter (fun x => x.name == n)).length = 1) :
    ∃ ra, l.find? (fun x => x.name == n) = some ra := by
  cases hf : l.find? (fun x => x.name == n) with
  | some ra => exact ⟨ra, rfl⟩
  | none =>
    exfalso
    rw [List.find?_eq_none] at hf
    have hnil : l.filter (fun x => x.name == n) = [] := by
      rw [List.filter_eq_nil_iff]
      exact fun x hx => hf x hx
    rw [hnil] at h
    simp at h

/-- Unfolding of the reconciliation on a missing name: create. -/
theorem uoc_none (d : Directory) (p : Project) (cfgModel : String) (cfgTemp : Rat)
    (a : Assistant) (h : get_openai_assistant d p a = none) :
    update_or_create_assistant d p cfgModel cfgTemp a =
      (Directory.mk (d.assistants ++
          [applyParams (RemoteAssistant.mk d.nextId "" "" "" "" 0)
            (assistantParams p cfgModel cfgTemp a)])
        (d.nextId + 1),
       applyParams (RemoteAssistant.mk d.nextId "" "" "" "" 0)
         (assistantParams p cfgModel cfgTemp a)) := by
  simp [update_or_create_assistant, h]

/-- Unfolding of the reconciliation on a present name: update. -/
theorem uoc_some (d : Directory) (p : Project) (cfgModel : String) (cfgTemp : Rat)
    (a : Assistant) (ra : RemoteAssistant) (h : get_openai_assistant d p a = some ra) :
    update_or_create_assistant d p cfgModel cfgTemp a =
      ({ d with assistants := d.assistants.map (fun x =>
          if x.id == ra.id then applyParams ra (assistantParams p cfgModel cfgTemp a)
          else x) },
       applyParams ra (assistantParams p cfgModel cfgTemp a)) := by
  simp [update_or_create_assistant, h]

/-- C4: reconciliation is an idempotent upsert keyed by the
deterministic name "{reference}-{name}-{role}": with no identity under
that name a new one is created and the count becomes one; with exactly
one, it is updated in place — same id, same listing size, still
exactly one identity under the name — and a second reconciliation with
the same project and assistant returns exactly the same directory and
identity, never a duplicate. -/
theorem C4_reconcile_idempotent (d : Directory) (p : Project) (cfgModel : String)
    (cfgTemp : Rat) (a : Assistant)
    (hids : (d.assistants.map RemoteAssistant.id).Nodup) :
    (countName d (generate_assistant_name p a) = 0 →
      countName (update_or_create_assistant d p cfgModel cfgTemp a).1
        (generate_assistant_name p a) = 1) ∧
    (countName d (generate_assistant_name p a) = 1 →
      ∃ ra, get_openai_assistant d p a = some ra ∧
        (update_or_create_assistant d p cfgModel cfgTemp a).2.id = ra.id ∧
        (update_or_create_assistant d p cfgModel cfgTemp a).1.assistants.length =
          d.assistants.length ∧
        countName (update_or_create_assistant d p cfgModel cfgTemp a).1
          (generate_assistant_name p a) = 1 ∧
        update_or_create_assistant
          (update_or_create_assistant d p cfgModel cfgTemp a).1 p cfgModel cfgTemp a =
          update_or_create_assistant d p cfgModel cfgTemp a) := by
  constructor
  · intro hzero
    have hfind : get_openai_assistant d p a = none :=
      find?_none_of_countName_zero d.assistants (generate_assistant_name p a) hzero
    rw [uoc_none d p cfgModel cfgTemp a hfind]
    unfold countName at hzero ⊢
    rw [List.filter_append, List.length_append, hzero]
    simp [applyParams, assistantParams]
  · intro hone
    obtain ⟨ra, hfind⟩ := find?_of_countName_one d.assistants
      (generate_assistant_name p a) hone
    have hraname : ra.name = generate_assistant_name p a := by
      have := List.find?_some hfind
      simpa using this
    have hra1name : (applyParams ra (assistantParams p cfgModel cfgTemp a)).name =
        generate_assistant_name p a := rfl
    obtain ⟨hlen, hcnt, hfind1, hall⟩ :=
      upsert_one (generate_assistant_name p a)
        (applyParams ra (assistantParams p cfgModel cfgTemp a)) hra1name
        d.assistants ra hfind hids hone
    refine ⟨ra, hfind, ?_, ?_, ?_, ?_⟩
    · rw [uoc_some d p cfgModel cfgTemp a ra hfind]
      rfl
    · rw [uoc_some d p cfgModel cfgTemp a ra hfind]
      exact hlen
    · rw [uoc_some d p cfgModel cfgTemp a ra hfind]
      exact hcnt
    · rw [uoc_some d p cfgModel cfgTemp a ra hfind]
      have hfind2 : get_openai_assistant
          ({ d with assistants := d.assistants.map (fun x =>
            if x.id == ra.id then applyParams ra (assistantParams p cfgModel cfgTemp a)
            else x) } : Directory) p a =
          some (applyParams ra (assistantParams p cfgModel cfgTemp a)) := hfind1
      rw [uoc_some _ p cfgModel cfgTemp a _ hfind2]
      have happ : applyParams (applyParams ra (assistantParams p cfgModel cfgTemp a))
          (assistantParams p cfgModel cfgTemp a) =
          applyParams ra (assistantParams p cfgModel cfgTemp a) := rfl
      rw [happ]
      have hmapid : (d.assistants.map (fun x =>
          if x.id == ra.id then applyParams ra (assistantParams p cfgModel cfgTemp a)
          else x)).map (fun x =>
          if x.id == (applyParams ra (assistantParams p cfgModel cfgTemp a)).id then
            applyParams ra (assistantParams p cfgModel cfgTemp a)
          else x) =
          d.assistants.map (fun x =>
            if x.id == ra.id then applyParams ra (assistantParams p cfgModel cfgTemp a)
            else x) :=
        map_update_self _ _ (fun z hz hzid => hall z hz hzid)
      rw [hmapid]

/-- Witness for C4: reconciling the demo assistant twice against a
directory already holding its identity updates in place and changes
nothing the second time. -/
theorem C4_reconcile_idempotent_witness :
    ∃ ra, get_openai_assistant demoDirectory demoProject sampleAssistant = some ra ∧
      (update_or_create_assistant demoDirectory demoProject "gpt-4o" (2/10 : Rat)
        sampleAssistant).2.id = ra.id ∧
      (update_or_create_assistant demoDirectory demoProject "gpt-4o" (2/10 : Rat)
        sampleAssistant).1.assistants.length = demoDirectory.assistants.length ∧
      countName (update_or_create_assistant demoDirectory demoProject "gpt-4o"
        (2/10 : Rat) sampleAssistant).1
        (generate_assistant_name demoProject sampleAssistant) = 1 ∧
      update_or_create_assistant
        (update_or_create_assistant demoDirectory demoProject "gpt-4o" (2/10 : Rat)
          sampleAssistant).1 demoProject "gpt-4o" (2/10 : Rat) sampleAssistant =
        update_or_create_assistant demoDirectory demoProject "gpt-4o" (2/10 : Rat)
          sampleAssistant :=
  (C4_reconcile_idempotent demoDirectory demoProject "gpt-4o" (2/10 : Rat)
    sampleAssistant (by decide)).2 (by decide)


/-! Round-trip lemmas for the JSON persistence model (C8). -/

/-- mapM over a dump succeeds elementwise. -/
theorem mapM_ok_of_all {a b : Type} (f : a → Except String b) (g : b → a) :
    ∀ l : List b, (∀ x ∈ l, f (g x) = .ok x) → (l.map g).mapM f = .ok l := by
  intro l
  induction l with
  | nil => intro _; rfl
  | cons x l1 ih =>
    intro h
    simp only [List.map_cons, List.mapM_cons, h x (List.mem_cons_self x l1),
      ih (fun y hy => h y (List.mem_cons_of_mem x hy))]
    rfl

/-- String-list validation undoes the string-list dump. -/
theorem parseStrList_dump (l : List String) :
    parseStrList (.jarr (l.map .jstr)) = .ok l :=
  mapM_ok_of_all parseStr JValue.jstr l (fun _ _ => rfl)

/-- Assistant validation undoes the Assistant dump. -/
theorem validateAssistant_dump (a : Assistant) :
    validateAssistant (dumpAssistant a) = .ok a := by
  have h : validateAssistant (dumpAssistant a) =
      Except.bind (parseStrList (.jarr (a.tools.map .jstr)))
        (fun tools => .ok { name := a.name, role := a.role,
                            instructions := a.instructions, tools := tools }) := rfl
  rw [h, parseStrList_dump]
  rfl

/-- Requirement validation undoes the Requirement dump. -/
theorem validateRequirement_dump (r : Requirement) :
    validateRequirement (dumpRequirement r) = .ok r := rfl

/-- Task validation undoes the Task dump, done flag included. -/
theorem validateTask_dump (t : Task) :
    validateTask (dumpTask t) = .ok t := by
  have h : validateTask (dumpTask t) =
      Except.bind (validateAssistant (dumpAssistant t.assigned_to))
        (fun assigned_to =>
          Except.bind (parseStrList (.jarr (t.depends_on.map .jstr)))
            (fun depends_on =>
              Except.bind (parseStrList (.jarr (t.functions.map .jstr)))
                (fun functions =>
                  .ok { title := t.title, instructions := t.instructions,
                        assigned_to := assigned_to, done := t.done,
                        depends_on := depends_on, functions := functions }))) := rfl
  rw [h]
  simp only [validateAssistant_dump, parseStrList_dump]
  rfl

/-- Project validation undoes the Project dump. -/
theorem validateProject_dump (p : Project) :
    validateProject (dumpProject p) = .ok p := by
  have h : validateProject (dumpProject p) =
      Except.bind (parseStrList (.jarr (p.goals.map .jstr)))
        (fun goals =>
          Except.bind ((p.assistants.map dumpAssistant).mapM validateAssistant)
            (fun assistants =>
              Except.bind ((p.tasks.map dumpTask).mapM validateTask)
                (fun tasks =>
                  Except.bind
                    ((p.requirements.map dumpRequirement).mapM validateRequirement)
                    (fun requirements =>
                      .ok { reference := p.reference, goals := goals,
                            assistants := assistants, tasks := tasks,
                            requirements := requirements })))) := rfl
  rw [h]
  simp only [parseStrList_dump,
    mapM_ok_of_all validateAssistant dumpAssistant p.assistants
      (fun x _ => validateAssistant_dump x),
    mapM_ok_of_all validateTask dumpTask p.tasks (fun x _ => validateTask_dump x),
    mapM_ok_of_all validateRequirement dumpRequirement p.requirements
      (fun x _ => validateRequirement_dump x)]
  rfl

/-- A computation that can never succeed is an error. -/
theorem not_ok_error {a : Type} {x : Except String a} (h : ∀ b, x ≠ .ok b) :
    ∃ e, x = .error e := by
  cases x with
  | error m => exact ⟨m, rfl⟩
  | ok b => exact absurd rfl (h b)

/-- An error on the left of a bind propagates. -/
theorem bind_error_left {a b : Type} {x : Except String a}
    {f : a → Except String b} {m : String} (h : x = .error m) :
    Except.bind x f = .error m := by
  rw [h]
  rfl

/-- A bind whose continuation always errors errors. -/
theorem bind_error_chain {a b : Type} {x : Except String a}
    {f : a → Except String b}
    (h : ∀ v, x = .ok v → ∃ m, f v = .error m) :
    ∃ m, Except.bind x f = .error m := by
  cases hx : x with
  | error m => exact ⟨m, rfl⟩
  | ok v =>
    obtain ⟨m, hm⟩ := h v hx
    exact ⟨m, by rw [show Except.bind (Except.ok v) f = f v from rfl, hm]⟩

/-- Inversion of a successful bind. -/
theorem bind_ok_inv {a b : Type} {x : Except String a}
    {f : a → Except String b} {r : b} (h : Except.bind x f = .ok r) :
    ∃ v, x = .ok v ∧ f v = .ok r := by
  cases hx : x with
  | error m =>
    rw [hx] at h
    exact Except.noConfusion h
  | ok v =>
    rw [hx] at h
    exact ⟨v, rfl, h⟩

/-- A missing key makes the required-field check fail. -/
theorem reqField_missing {o : List (String × JValue)} {k : String}
    (h : jField o k = none) :
    reqField o k = .error ("Field required: " ++ k) := by
  rw [reqField, h]

/-- A successful required-field check means the key is present. -/
theorem reqField_ok_inv {o : List (String × JValue)} {k : String} {v : JValue}
    (h : reqField o k = .ok v) : jField o k = some v := by
  cases hj : jField o k with
  | some w =>
    have h2 : reqField o k = .ok w := by rw [reqField, hj]
    rw [h2] at h
    exact congrArg some (Except.ok.inj h)
  | none =>
    have h2 : reqField o k = .error ("Field required: " ++ k) := by
      rw [reqField, hj]
    rw [h2] at h
    exact Except.noConfusion h

/-- A successful mapM validated every element. -/
theorem mapM_ok_mem {a b : Type} (f : a → Except String b) :
    ∀ (xs : List a) (bs : List b), xs.mapM f = .ok bs →
      ∀ x ∈ xs, ∃ y, f x = .ok y := by
  intro xs
  induction xs with
  | nil =>
    intro bs h x hx
    exact absurd hx (List.not_mem_nil x)
  | cons z xs1 ih =>
    intro bs h x hx
    rw [List.mapM_cons] at h
    have h2 : Except.bind (f z)
        (fun y => Except.bind (List.mapM f xs1)
          (fun ys => Except.ok (y :: ys))) = Except.ok bs := h
    obtain ⟨y, hy, h3⟩ := bind_ok_inv h2
    obtain ⟨ys, hys, h4⟩ := bind_ok_inv h3
    rcases List.mem_cons.mp hx with hxz | hx1
    · exact ⟨y, by rw [hxz]; exact hy⟩
    · exact ih ys hys x hx1

/-- An Assistant document missing any of its required fields (name,
role, instructions) is rejected. -/
theorem validateAssistant_requires (o : List (String × JValue))
    (h : jField o "name" = none ∨ jField o "role" = none ∨
      jField o "instructions" = none) :
    ∃ e, validateAssistant (.jobj o) = .error e := by
  obtain ⟨g, h0⟩ : ∃ g : String → String → String → Except String Assistant,
      validateAssistant (.jobj o) =
      Except.bind (Except.bind (reqField o "name") parseStr)
        (fun name => Except.bind (Except.bind (reqField o "role") parseStr)
          (fun role =>
            Except.bind (Except.bind (reqField o "instructions") parseStr)
              (fun instructions => g name role instructions))) := ⟨_, rfl⟩
  rw [h0]
  rcases h with h | h | h
  · exact ⟨_, bind_error_left (bind_error_left (reqField_missing h))⟩
  · apply bind_error_chain
    intro v _
    exact ⟨_, bind_error_left (bind_error_left (reqField_missing h))⟩
  · apply bind_error_chain
    intro v _
    apply bind_error_chain
    intro v2 _
    exact ⟨_, bind_error_left (bind_error_left (reqField_missing h))⟩

/-- A Requirement document missing any of its required fields (title,
description) is rejected. -/
theorem validateRequirement_requires (o : List (String × JValue))
    (h : jField o "title" = none ∨ jField o "description" = none) :
    ∃ e, validateRequirement (.jobj o) = .error e := by
  have h0 : validateRequirement (.jobj o) =
      Except.bind (Except.bind (reqField o "title") parseStr)
        (fun title =>
          Except.bind (Except.bind (reqField o "description") parseStr)
            (fun description =>
              Except.ok { title := title, description := description })) := rfl
  rw [h0]
  rcases h with h | h
  · exact ⟨_, bind_error_left (bind_error_left (reqField_missing h))⟩
  · apply bind_error_chain
    intro v _
    exact ⟨_, bind_error_left (bind_error_left (reqField_missing h))⟩

/-- A Task document missing any of its required fields (title,
instructions, assigned_to) is rejected. -/
theorem validateTask_requires (o : List (String × JValue))
    (h : jField o "title" = none ∨ jField o "instructions" = none ∨
      jField o "assigned_to" = none) :
    ∃ e, validateTask (.jobj o) = .error e := by
  obtain ⟨g, h0⟩ : ∃ g : String → String → Assistant → Except String Task,
      validateTask (.jobj o) =
      Except.bind (Except.bind (reqField o "title") parseStr)
        (fun title => Except.bind (Except.bind (reqField o "instructions") parseStr)
          (fun instructions =>
            Except.bind (Except.bind (reqField o "assigned_to") validateAssistant)
              (fun assigned_to => g title instructions assigned_to))) := ⟨_, rfl⟩
  rw [h0]
  rcases h with h | h | h
  · exact ⟨_, bind_error_left (bind_error_left (reqField_missing h))⟩
  · apply bind_error_chain
    intro v _
    exact ⟨_, bind_error_left (bind_error_left (reqField_missing h))⟩
  · apply bind_error_chain
    intro v _
    apply bind_error_chain
    intro v2 _
    exact ⟨_, bind_error_left (bind_error_left (reqField_missing h))⟩

/-- A Task document whose nested assigned_to object misses a required
Assistant field is rejected. -/
theorem validateTask_nested_assistant (o ao : List (String × JValue))
    (hf : jField o "assigned_to" = some (.jobj ao))
    (hmiss : jField ao "name" = none ∨ jField ao "role" = none ∨
      jField ao "instructions" = none) :
    ∃ e, validateTask (.jobj o) = .error e := by
  apply not_ok_error
  intro t hok
  obtain ⟨g, h0⟩ : ∃ g : String → String → Assistant → Except String Task,
      validateTask (.jobj o) =
      Except.bind (Except.bind (reqField o "title") parseStr)
        (fun title => Except.bind (Except.bind (reqField o "instructions") parseStr)
          (fun instructions =>
            Except.bind (Except.bind (reqField o "assigned_to") validateAssistant)
              (fun assigned_to => g title instructions assigned_to))) := ⟨_, rfl⟩
  rw [h0] at hok
  obtain ⟨t1, _, hok⟩ := bind_ok_inv hok
  obtain ⟨i1, _, hok⟩ := bind_ok_inv hok
  obtain ⟨a1, ha1, _⟩ := bind_ok_inv hok
  obtain ⟨v3, hreq, hva⟩ := bind_ok_inv ha1
  have hj := reqField_ok_inv hreq
  rw [hf] at hj
  rw [(Option.some.inj hj).symm] at hva
  obtain ⟨e, he⟩ := validateAssistant_requires ao hmiss
  rw [he] at hva
  exact Except.noConfusion hva

/-- A Project document missing any of its required fields (reference,
goals, assistants, tasks) is rejected. -/
theorem validateProject_requires (o : List (String × JValue))
    (h : jField o "reference" = none ∨ jField o "goals" = none ∨
      jField o "assistants" = none ∨ jField o "tasks" = none) :
    ∃ e, validateProject (.jobj o) = .error e := by
  obtain ⟨g, h0⟩ : ∃ g : String → List String → List Assistant → List Task →
      Except String Project, validateProject (.jobj o) =
      Except.bind (Except.bind (reqField o "reference") parseStr)
        (fun reference =>
          Except.bind (Except.bind (reqField o "goals") parseStrList)
            (fun goals =>
              Except.bind (Except.bind (reqField o "assistants")
                  (validateList validateAssistant))
                (fun assistants =>
                  Except.bind (Except.bind (reqField o "tasks")
                      (validateList validateTask))
                    (fun tasks => g reference goals assistants tasks)))) := ⟨_, rfl⟩
  rw [h0]
  rcases h with h | h | h | h
  · exact ⟨_, bind_error_left (bind_error_left (reqField_missing h))⟩
  · apply bind_error_chain
    intro v _
    exact ⟨_, bind_error_left (bind_error_left (reqField_missing h))⟩
  · apply bind_error_chain
    intro v _
    apply bind_error_chain
    intro v2 _
    exact ⟨_, bind_error_left (bind_error_left (reqField_missing h))⟩
  · apply bind_error_chain
    intro v _
    apply bind_error_chain
    intro v2 _
    apply bind_error_chain
    intro v3 _
    exact ⟨_, bind_error_left (bind_error_left (reqField_missing h))⟩

/-- A Project document whose tasks array holds an object missing a
required Task field is rejected. -/
theorem validateProject_nested_task (o : List (String × JValue))
    (vs : List JValue) (to1 : List (String × JValue))
    (hf : jField o "tasks" = some (.jarr vs)) (hmem : JValue.jobj to1 ∈ vs)
    (hmiss : jField to1 "title" = none ∨ jField to1 "instructions" = none ∨
      jField to1 "assigned_to" = none) :
    ∃ e, validateProject (.jobj o) = .error e := by
  apply not_ok_error
  intro p hok
  obtain ⟨g, h0⟩ : ∃ g : String → List String → List Assistant → List Task →
      Except String Project, validateProject (.jobj o) =
      Except.bind (Except.bind (reqField o "reference") parseStr)
        (fun reference =>
          Except.bind (Except.bind (reqField o "goals") parseStrList)
            (fun goals =>
              Except.bind (Except.bind (reqField o "assistants")
                  (validateList validateAssistant))
                (fun assistants =>
                  Except.bind (Except.bind (reqField o "tasks")
                      (validateList validateTask))
                    (fun tasks => g reference goals assistants tasks)))) := ⟨_, rfl⟩
  rw [h0] at hok
  obtain ⟨r1, _, hok⟩ := bind_ok_inv hok
  obtain ⟨g1, _, hok⟩ := bind_ok_inv hok
  obtain ⟨s1, _, hok⟩ := bind_ok_inv hok
  obtain ⟨tks, htks, _⟩ := bind_ok_inv hok
  obtain ⟨v4, hreq, hval⟩ := bind_ok_inv htks
  have hj := reqField_ok_inv hreq
  rw [hf] at hj
  rw [(Option.some.inj hj).symm] at hval
  have hmapM : List.mapM validateTask vs = .ok tks := hval
  obtain ⟨tk, htk⟩ := mapM_ok_mem validateTask vs tks hmapM (JValue.jobj to1) hmem
  obtain ⟨e, he⟩ := validateTask_requires to1 hmiss
  rw [he] at htk
  exact Except.noConfusion htk

/-- A Project document whose assistants array holds an object missing a
required Assistant field is rejected. -/
theorem validateProject_nested_assistant (o : List (String × JValue))
    (vs : List JValue) (ao : List (String × JValue))
    (hf : jField o "assistants" = some (.jarr vs)) (hmem : JValue.jobj ao ∈ vs)
    (hmiss : jField ao "name" = none ∨ jField ao "role" = none ∨
      jField ao "instructions" = none) :
    ∃ e, validateProject (.jobj o) = .error e := by
  apply not_ok_error
  intro p hok
  obtain ⟨g, h0⟩ : ∃ g : String → List String → List Assistant → List Task →
      Except String Project, validateProject (.jobj o) =
      Except.bind (Except.bind (reqField o "reference") parseStr)
        (fun reference =>
          Except.bind (Except.bind (reqField o "goals") parseStrList)
            (fun goals =>
              Except.bind (Except.bind (reqField o "assistants")
                  (validateList validateAssistant))
                (fun assistants =>
                  Except.bind (Except.bind (reqField o "tasks")
                      (validateList validateTask))
                    (fun tasks => g reference goals assistants tasks)))) := ⟨_, rfl⟩
  rw [h0] at hok
  obtain ⟨r1, _, hok⟩ := bind_ok_inv hok
  obtain ⟨g1, _, hok⟩ := bind_ok_inv hok
  obtain ⟨asg, hasg, _⟩ := bind_ok_inv hok
  obtain ⟨v3, hreq, hval⟩ := bind_ok_inv hasg
  have hj := reqField_ok_inv hreq
  rw [hf] at hj
  rw [(Option.some.inj hj).symm] at hval
  have hmapM : List.mapM validateAssistant vs = .ok asg := hval
  obtain ⟨av, hav⟩ := mapM_ok_mem validateAssistant vs asg hmapM (JValue.jobj ao) hmem
  obtain ⟨e, he⟩ := validateAssistant_requires ao hmiss
  rw [he] at hav
  exact Except.noConfusion hav

/-- C8: save followed by load yields a Project equal in every field to
the original (reference, goals, assistants, tasks with done flags,
depends_on, functions, requirements), and load rejects any document
missing a required field with a validation error: the first missing
top-level field is named, every required field of Project, Task,
Assistant and Requirement documents triggers rejection, and a missing
required field of an object nested in the assistants or tasks array, or
in a task's assigned_to object, propagates to reject the whole
document. -/
theorem C8_save_load_roundtrip :
    (∀ p : Project, validateProject (dumpProject p) = .ok p) ∧
    (∀ o : List (String × JValue), jField o "reference" = none →
      validateProject (.jobj o) = .error "Field required: reference") ∧
    (∀ o : List (String × JValue),
      jField o "reference" = none ∨ jField o "goals" = none ∨
        jField o "assistants" = none ∨ jField o "tasks" = none →
      ∃ e, validateProject (.jobj o) = .error e) ∧
    (∀ o : List (String × JValue),
      jField o "title" = none ∨ jField o "instructions" = none ∨
        jField o "assigned_to" = none →
      ∃ e, validateTask (.jobj o) = .error e) ∧
    (∀ o : List (String × JValue),
      jField o "name" = none ∨ jField o "role" = none ∨
        jField o "instructions" = none →
      ∃ e, validateAssistant (.jobj o) = .error e) ∧
    (∀ o : List (String × JValue),
      jField o "title" = none ∨ jField o "description" = none →
      ∃ e, validateRequirement (.jobj o) = .error e) ∧
    (∀ (o : List (String × JValue)) (vs : List JValue)
        (to1 : List (String × JValue)),
      jField o "tasks" = some (.jarr vs) → JValue.jobj to1 ∈ vs →
      (jField to1 "title" = none ∨ jField to1 "instructions" = none ∨
        jField to1 "assigned_to" = none) →
      ∃ e, validateProject (.jobj o) = .error e) ∧
    (∀ (o : List (String × JValue)) (vs : List JValue)
        (ao : List (String × JValue)),
      jField o "assistants" = some (.jarr vs) → JValue.jobj ao ∈ vs →
      (jField ao "name" = none ∨ jField ao "role" = none ∨
        jField ao "instructions" = none) →
      ∃ e, validateProject (.jobj o) = .error e) ∧
    (∀ (o ao : List (String × JValue)),
      jField o "assigned_to" = some (.jobj ao) →
      (jField ao "name" = none ∨ jField ao "role" = none ∨
        jField ao "instructions" = none) →
      ∃ e, validateTask (.jobj o) = .error e) := by
  refine ⟨validateProject_dump, ?_, validateProject_requires,
    validateTask_requires, validateAssistant_requires,
    validateRequirement_requires, validateProject_nested_task,
    validateProject_nested_assistant, validateTask_nested_assistant⟩
  intro o h
  have h2 : reqField o "reference" = .error "Field required: reference" := by
    rw [reqField, h]
    rfl
  simp only [validateProject]
  rw [h2]
  rfl

/-- Witness for C8: the demo project round-trips exactly, the empty
document is rejected for its missing reference field, and a document
whose tasks array holds an object without a title is rejected. -/
theorem C8_save_load_roundtrip_witness :
    validateProject (dumpProject demoProject) = .ok demoProject ∧
    validateProject (.jobj []) = .error "Field required: reference" ∧
    validateProject (.jobj [("reference", JValue.jstr "p"),
      ("goals", JValue.jarr []), ("assistants", JValue.jarr []),
      ("tasks", JValue.jarr [JValue.jobj []])]) =
      .error "Field required: title" := by
  refine ⟨C8_save_load_roundtrip.1 demoProject,
    C8_save_load_roundtrip.2.1 [] rfl, ?_⟩
  obtain ⟨e, he⟩ := C8_save_load_roundtrip.2.2.2.2.2.2.1
    [("reference", JValue.jstr "p"), ("goals", JValue.jarr []),
     ("assistants", JValue.jarr []), ("tasks", JValue.jarr [JValue.jobj []])]
    [JValue.jobj []] [] rfl (List.mem_singleton.mpr rfl) (Or.inl rfl)
  rfl

/-! Last-occurrence-wins dict semantics (C10). -/

/-- A Bool that is not true is false. -/
theorem bool_eq_false_of_ne_true {b : Bool} (h : ¬ b = true) : b = false := by
  cases b with
  | false => rfl
  | true => exact absurd rfl h

/-- Lookup at a matching head. -/
theorem lookupTask_cons_pos (u : Task) (m : List Task) (k : String)
    (h : (u.title == k) = true) : lookupTask (u :: m) k = some u := by
  rw [lookupTask, List.find?_cons_of_pos (p := fun x : Task => x.title == k) m h]

/-- Lookup skips a non-matching head. -/
theorem lookupTask_cons_neg (u : Task) (m : List Task) (k : String)
    (h : (u.title == k) = false) : lookupTask (u :: m) k = lookupTask m k := by
  rw [lookupTask, List.find?_cons_of_neg (p := fun x : Task => x.title == k) m
    (by simp [h]), lookupTask]

/-- Lookup through the in-place replacement map of dictInsert. -/
theorem lookup_map_replace (t : Task) (k : String) : ∀ m : List Task,
    lookupTask (m.map (fun u => if u.title == t.title then t else u)) k =
      if (t.title == k) = true then
        (if (m.any (fun u => u.title == t.title)) = true then some t else none)
      else lookupTask m k := by
  intro m
  induction m with
  | nil =>
    by_cases hk : (t.title == k) = true
    · rw [List.map_nil, if_pos hk]
      rfl
    · rw [List.map_nil, if_neg hk]
  | cons u m1 ih =>
    simp only [List.map_cons]
    by_cases hu : (u.title == t.title) = true
    · rw [if_pos hu]
      have hany : ((u :: m1).any (fun u => u.title == t.title)) = true := by
        rw [List.any_cons, hu, Bool.true_or]
      by_cases hk : (t.title == k) = true
      · rw [lookupTask_cons_pos _ _ _ hk, if_pos hk, if_pos hany]
      · have hk0 : (t.title == k) = false := bool_eq_false_of_ne_true hk
        have huk : (u.title == k) = false := by
          rw [beq_eq_false_iff_ne, eq_of_beq hu]
          exact beq_eq_false_iff_ne.mp hk0
        rw [lookupTask_cons_neg _ _ _ hk0, ih, if_neg hk, if_neg hk,
          lookupTask_cons_neg _ _ _ huk]
    · have hu0 : (u.title == t.title) = false := bool_eq_false_of_ne_true hu
      rw [if_neg hu]
      have hany : ((u :: m1).any (fun u => u.title == t.title)) =
          (m1.any (fun u => u.title == t.title)) := by
        rw [List.any_cons, hu0, Bool.false_or]
      by_cases huk : (u.title == k) = true
      · have htk : (t.title == k) = false := by
          rw [beq_eq_false_iff_ne]
          intro hEq
          exact hu (beq_iff_eq.mpr (by rw [eq_of_beq huk, hEq]))
        rw [lookupTask_cons_pos _ _ _ huk,
          if_neg (by rw [htk]; exact Bool.false_ne_true),
          lookupTask_cons_pos _ _ _ huk]
      · have huk0 : (u.title == k) = false := bool_eq_false_of_ne_true huk
        rw [lookupTask_cons_neg _ _ _ huk0, ih, hany,
          lookupTask_cons_neg _ _ _ huk0]

/-- Lookup through a single-element append. -/
theorem lookupTask_append_single (m : List Task) (t : Task) (k : String) :
    lookupTask (m ++ [t]) k =
      match lookupTask m k with
      | some x => some x
      | none => if (t.title == k) = true then some t else none := by
  induction m with
  | nil =>
    by_cases hk : (t.title == k) = true
    · rw [List.nil_append, lookupTask_cons_pos _ _ _ hk]
      show _ = if (t.title == k) = true then some t else none
      rw [if_pos hk]
    · rw [List.nil_append, lookupTask_cons_neg _ _ _ (bool_eq_false_of_ne_true hk)]
      show lookupTask ([] : List Task) k =
        if (t.title == k) = true then some t else none
      rw [if_neg hk]
      rfl
  | cons u m1 ih =>
    rw [List.cons_append]
    by_cases huk : (u.title == k) = true
    · rw [lookupTask_cons_pos _ _ _ huk, lookupTask_cons_pos _ _ _ huk]
    · have huk0 : (u.title == k) = false := bool_eq_false_of_ne_true huk
      rw [lookupTask_cons_neg _ _ _ huk0, ih, lookupTask_cons_neg _ _ _ huk0]

/-- A dict insertion makes the inserted task the value of its title and
changes no other lookup, whether the key was present or fresh. -/
theorem dictInsert_lookup (m : List Task) (t : Task) (k : String) :
    lookupTask (dictInsert m t) k =
      if (t.title == k) = true then some t else lookupTask m k := by
  unfold dictInsert
  by_cases hany : (m.any (fun u => u.title == t.title)) = true
  · rw [if_pos hany, lookup_map_replace, hany]
    by_cases hk : (t.title == k) = true
    · rw [if_pos hk, if_pos hk]
      rfl
    · rw [if_neg hk, if_neg hk]
  · rw [if_neg hany, lookupTask_append_single]
    by_cases hk : (t.title == k) = true
    · have hnone : lookupTask m k = none := by
        rw [lookupTask_eq_none_iff]
        intro s hs hEq
        obtain ⟨u, hu, rfl⟩ := List.mem_map.mp hs
        apply hany
        rw [List.any_eq_true]
        exact ⟨u, hu, beq_iff_eq.mpr (by rw [hEq, eq_of_beq hk])⟩
      simp only [hnone, if_pos hk]
    · simp only [if_neg hk]
      cases hl : lookupTask m k with
      | some x => rfl
      | none => rfl

/-- The value of the reversed-find of the last element. -/
theorem lastOcc_append_single (ts : List Task) (t : Task) (k : String) :
    lastOcc (ts ++ [t]) k =
      if (t.title == k) = true then some t else lastOcc ts k := by
  show lookupTask ((ts ++ [t]).reverse) k = _
  rw [List.reverse_append, List.reverse_singleton, List.singleton_append]
  by_cases hk : (t.title == k) = true
  · rw [lookupTask_cons_pos _ _ _ hk, if_pos hk]
  · rw [lookupTask_cons_neg _ _ _ (bool_eq_false_of_ne_true hk), if_neg hk]
    rfl

/-- Python dict semantics of buildTasks: the value stored under a title
is the last task with that title in declared order. -/
theorem buildTasks_lookup (ts : List Task) (k : String) :
    lookupTask (buildTasks ts) k = lastOcc ts k := by
  induction ts using List.reverseRecOn with
  | nil => rfl
  | append_singleton ts t ih =>
    rw [buildTasks, List.foldl_append, List.foldl_cons, List.foldl_nil,
      dictInsert_lookup, lastOcc_append_single,
      show List.foldl dictInsert [] ts = buildTasks ts from rfl, ih]

/-- The dict key order is first occurrence of each distinct title. -/
theorem buildTasks_titles_distinct : ∀ (ts acc : List Task),
    ((List.foldl dictInsert acc ts).map Task.title) =
      List.foldl (fun ks k => if k ∈ ks then ks else ks ++ [k])
        (acc.map Task.title) (ts.map Task.title) := by
  intro ts
  induction ts with
  | nil => intro acc; rfl
  | cons t ts1 ih =>
    intro acc
    rw [List.foldl_cons, List.map_cons, List.foldl_cons, ih]
    by_cases hmem : t.title ∈ acc.map Task.title
    · have hany : (acc.any (fun u => u.title == t.title)) = true := by
        rw [List.any_eq_true]
        obtain ⟨u, hu, hEq⟩ := List.mem_map.mp hmem
        exact ⟨u, hu, beq_iff_eq.mpr hEq⟩
      rw [dictInsert_titles_present acc t hany, if_pos hmem]
    · have hany : (acc.any (fun u => u.title == t.title)) = false := by
        apply bool_eq_false_of_ne_true
        rw [List.any_eq_true]
        rintro ⟨u, hu, hbeq⟩
        exact hmem (List.mem_map.mpr ⟨u, hu, eq_of_beq hbeq⟩)
      rw [dictInsert_titles_absent acc t hany, if_neg hmem]

/-- Key list of the task dict in first-occurrence order. -/
theorem buildTasks_titles_firstOcc (ts : List Task) :
    (buildTasks ts).map Task.title = distinctTitles (ts.map Task.title) :=
  buildTasks_titles_distinct ts []

/-- C10: the task dict keeps, for each title, only the last task with
that title in declared order (keys in first-occurrence order); on the
two-task duplicate project the dict holds only the later task, execute
terminates reporting completion having executed the later task exactly
once (the posted instructions are the second task body), and the
earlier duplicate is still present in project.tasks with done = false. -/
theorem C10_duplicate_titles_last_wins :
    (∀ (ts : List Task) (k : String),
      lookupTask (buildTasks ts) k = lastOcc ts k) ∧
    (∀ ts : List Task, (buildTasks ts).map Task.title =
      distinctTitles (ts.map Task.title)) ∧
    buildTasks dupProject.tasks = [dupTaskTwo] ∧
    executeModel emptyRegistry trivEnv dupProject 0 2 =
      .ok { m := [{ dupTaskTwo with done := true }],
            thread := [{ role := "user", content := dupTaskTwo.instructions }],
            trace := [("A", none)] }
        [{ m := [dupTaskTwo], thread := [], trace := [] }] ∧
    finalTaskList dupProject.tasks [{ dupTaskTwo with done := true }] =
      [dupTaskOne, { dupTaskTwo with done := true }] ∧
    dupTaskOne.done = false :=
  ⟨buildTasks_lookup, buildTasks_titles_firstOcc, rfl, rfl, rfl, rfl⟩

end Autoproject
